import Mathlib

/-!
Verification of the cc_session_mon session ingestion and classification
pipeline.

This file gives a shallow embedding of the core of the `cc_session_mon` Go
repository — the pattern extractor (`internal/session/pattern.go`), the JSONL
record parser and incremental file reader (`parser.go`, the file whose
functions are `ParseSessionFile`, `ParseSessionFileFrom`,
`parseState.processLine`, `parseState.processToolUse`), and the filesystem
watcher / session registry (`watcher.go`: `Watcher.parseSessionFile`,
`Watcher.handleFileUpdate`, `Watcher.handleNewFile`,
`Watcher.ScanForNewSubagents`, `Watcher.GetSessions`,
`Watcher.RefreshActivityStatus`, `Watcher.rebuildSortedCache`) — and proves
or refutes the specification claims about it.

Modelling conventions:
* Go strings and file contents are `String` / `List Char`; byte offsets are
  `Nat` (the Go `int64` offsets are non-negative and far from overflow in all
  behaviours the claims quantify over).
* `bufio.Scanner` line splitting (split on the newline character, drop one trailing
  carriage return per token, final unterminated line still delivered) is
  modelled by `splitNl` / `dropCR` / `scanTokens` below.
* `encoding/json.Unmarshal` of a line into a `JSONLRecord`, RFC3339 timestamp
  parsing, the configuration collaborator's `ShouldInclude`, and the wall
  clock `time.Now()` are deterministic external functions; the parser is
  uniform in them, so they are packaged as the parameter structure `Env`.
  The nested `json.Unmarshal(content.Input, &input)` into `GenericInput` is
  modelled by storing its result (`Option GenericInput`) in the content item.
* Go `map[string]bool` sets are `List String` with membership; Go maps with
  zero-value defaults (`w.offsets`, `w.lineNumbers`) are total functions
  `String → Nat`; the watcher's `map[string]*Session` with shared pointers is
  an association list keyed by file path, and the sorted cache of `*Session`
  pointers is the list of keys (a cached pointer and a map entry alias the
  same session, which the key model reproduces).
-/

namespace CCMon

/-! Go string primitives (strings.Fields, TrimSpace, and friends).

These are the exact semantics of the Go standard-library calls used by
`pattern.go`, implemented over `List Char` so that everything reduces well.
-/

/-- A list of characters starts with the character `c`. Models
`strings.HasPrefix(w, string(c))` for the one-character uses in the source. -/
def startsWithChar (c : Char) : List Char → Bool
  | [] => false
  | d :: _ => d = c

/-- `strings.Contains(w, string(c))` for a one-character needle. -/
def containsChar (c : Char) (l : List Char) : Bool := l.contains c

/-- Go `strings.TrimSpace`: drop leading and trailing whitespace. -/
def goTrimList (l : List Char) : List Char :=
  ((l.dropWhile Char.isWhitespace).reverse.dropWhile Char.isWhitespace).reverse

/-- Auxiliary for `goFields`: split into maximal whitespace-free runs.
`acc` is the (reversed) run currently being read. -/
def fieldsAux : List Char → List Char → List (List Char)
  | acc, [] => if acc = [] then [] else [acc.reverse]
  | acc, c :: cs =>
    if c.isWhitespace then
      if acc = [] then fieldsAux [] cs else acc.reverse :: fieldsAux [] cs
    else fieldsAux (c :: acc) cs

/-- Go `strings.Fields`: split around runs of whitespace, no empty fields. -/
def goFields (s : String) : List String :=
  (fieldsAux [] s.toList).map List.asString

/-- Go `strings.TrimSpace` on a `String`. -/
def goTrimSpace (s : String) : String := (goTrimList s.toList).asString

/-- The single-quote character, written by code point to keep the source
free of quote escapes. -/
def squote : Char := Char.ofNat 39

/-- The double-quote character, written by code point. -/
def dquote : Char := Char.ofNat 34

/-- Go `strings.Trim(s, cutset)` for the cutset holding the two quote
characters: drop leading and trailing quote characters. -/
def trimQuotes (s : String) : String :=
  let p : Char → Bool := fun c => c = squote || c = dquote
  (((s.toList.dropWhile p).reverse.dropWhile p).reverse).asString

/-- `strings.HasPrefix(w, "-")` on a `String`. -/
def dashFirst (w : String) : Bool := startsWithChar (Char.ofNat 45) w.toList

/-- `strings.Contains(w, "=")` on a `String`. -/
def hasEq (w : String) : Bool := containsChar (Char.ofNat 61) w.toList

/-! Pattern Extractor (`internal/session/pattern.go`). -/

/-- `subcommandDepth`: how many subcommand levels to capture per command.
Commands not in the map get 0 (Go map zero value). Every entry of the Go map
is 1, so the map is the indicator of its key set. -/
def subcommandDepth (cmd : String) : Nat :=
  if cmd ∈ ["git", "zfs", "zpool", "incus", "lxc", "podman", "docker",
            "kubectl", "helm", "systemctl", "launchctl", "nix",
            "nixos-rebuild", "home-manager", "go", "cargo", "npm", "yarn",
            "pnpm", "pip", "uv", "make", "gh", "tmux", "defaults", "alembic"]
  then 1 else 0

/-- `skipFlags`: skip leading arguments beginning with a dash. -/
def skipFlags : List String → List String
  | [] => []
  | w :: ws => if dashFirst w then skipFlags ws else w :: ws

/-- `skipEnvVars`: skip leading `NAME=value` tokens (containing `=`, not
starting with a dash). -/
def skipEnvVars : List String → List String
  | [] => []
  | w :: ws => if hasEq w && !dashFirst w then skipEnvVars ws else w :: ws

/-- `skipSudoFlags`: skip sudo's own flags; the flags `-u -g -C -D -h -p`
consume one following argument token. -/
def skipSudoFlags : List String → List String
  | [] => []
  | w :: ws =>
    if !dashFirst w then w :: ws
    else if w ∈ ["-u", "-g", "-C", "-D", "-h", "-p"] then
      match ws with
      | [] => []
      | _ :: ws' => skipSudoFlags ws'
    else skipSudoFlags ws

/-- Loop body of `unwrapEnv`: skip `VAR=val` and flag tokens after `env`. -/
def unwrapEnvAux : List String → List String
  | [] => []
  | w :: ws => if hasEq w || dashFirst w then unwrapEnvAux ws else w :: ws

/-- `unwrapEnv`: handle `env VAR=val command` / `env -i command`; the Go loop
starts at index 1 (past the `env` token itself). -/
def unwrapEnv (words : List String) : List String :=
  unwrapEnvAux words.tail

/-- `unwrapSimple`: wrappers that prefix a command (`time`, `nohup`, …). -/
def unwrapSimple (words : List String) : List String :=
  match words with
  | _ :: w :: ws => w :: ws
  | _ => []

/-- Loop body of `unwrapNice`: `-n` with a following token consumes both;
other dash tokens are skipped one at a time. -/
def unwrapNiceAux : List String → List String
  | [] => []
  | "-n" :: v :: ws => unwrapNiceAux (v :: ws).tail
  | w :: ws => if dashFirst w then unwrapNiceAux ws else w :: ws

/-- `unwrapNice`: handle `nice -n VALUE command`; the loop starts past the
`nice` token. -/
def unwrapNice (words : List String) : List String :=
  unwrapNiceAux words.tail

/-- Loop body of `unwrapXargs`: skip leading flag tokens. -/
def unwrapXargsAux : List String → List String
  | [] => []
  | w :: ws => if dashFirst w then unwrapXargsAux ws else w :: ws

/-- `unwrapXargs`: handle `xargs [flags] command`. -/
def unwrapXargs (words : List String) : List String :=
  unwrapXargsAux words.tail

/-- `unwrapCommand`: dispatch on the known command-wrapper prefixes. -/
def unwrapCommand (words : List String) : List String :=
  match words with
  | [] => []
  | w :: _ =>
    if w = "env" then unwrapEnv words
    else if w ∈ ["time", "nohup", "strace", "ltrace"] then unwrapSimple words
    else if w = "nice" then unwrapNice words
    else if w = "xargs" then unwrapXargs words
    else words

/-- `isShell`: the shell invokers recognized for `-c` unwrapping. -/
def isShell (cmd : String) : Bool :=
  cmd = "bash" || cmd = "sh" || cmd = "zsh"

/-- Loop body of `extractShellCommand`: look for a `-c` token with a
following command string; the string is trimmed, has surrounding quotes
stripped and is re-tokenized. `orig` is returned when no `-c` pair exists. -/
def extractShellAux (orig : List String) : List String → List String
  | "-c" :: v :: _ => goFields (trimQuotes (goTrimSpace v))
  | _ :: ws => extractShellAux orig ws
  | [] => orig

/-- `extractShellCommand`: extract the command from `sh -c <string>`;
the Go loop starts at index 1 (past the shell token). -/
def extractShellCommand (words : List String) : List String :=
  extractShellAux words words.tail

/-- `extractSubcommands`: take up to `depth` subcommand tokens, skipping
flags before each. -/
def extractSubcommandsAux : Nat → List String → List String
  | 0, _ => []
  | _, [] => []
  | Nat.succ d, args =>
    match skipFlags args with
    | [] => []
    | a :: rest => a :: extractSubcommandsAux d rest

/-- `extractSubcommands` with the Go early-out for depth 0 or no args. -/
def extractSubcommands (cmd : String) (args : List String) : List String :=
  let depth := subcommandDepth cmd
  if depth = 0 || args = [] then []
  else extractSubcommandsAux depth args

/-- `buildPatternParts`: `[sudo]? + command + subcommands`. -/
def buildPatternParts (hasSudo : Bool) (words : List String) : List String :=
  match words with
  | [] => []
  | cmd :: rest =>
    (if hasSudo then ["sudo"] else []) ++ cmd :: extractSubcommands cmd rest

/-- `bashPattern`: render the parts. -/
def bashPattern (hasSudo : Bool) (parts : List String) : String :=
  match parts with
  | [] => if hasSudo then "Bash(sudo:*)" else "Bash"
  | _ => "Bash(" ++ String.intercalate ":" parts ++ ":*)"

/-- `extractBashPattern`: the bash command pattern grammar. -/
def extractBashPattern (command : String) : String :=
  let command := goTrimSpace command
  if command = "" then "Bash"
  else
    let words := goFields command
    if words = [] then "Bash"
    else
      let words := skipEnvVars words
      if words = [] then "Bash"
      else
        let hasSudo := decide (words.head? = some "sudo")
        let words := if hasSudo then skipSudoFlags words.tail else words
        let words := unwrapCommand words
        let words :=
          match words with
          | w :: _ => if isShell w then extractShellCommand words else words
          | [] => words
        match words with
        | [] => bashPattern hasSudo []
        | _ => bashPattern hasSudo (buildPatternParts hasSudo words)

/-- `ExtractPattern`: tool call → Claude permission pattern. Non-`Bash`
tools map to the tool name verbatim (the `Edit/Write/NotebookEdit` case and
the default case of the Go switch coincide). -/
def ExtractPattern (toolName input : String) : String :=
  if toolName = "Bash" then extractBashPattern input else toolName

/-! Record Parser data model (`parser.go`).

`GenericInput` mirrors the struct that `json.Unmarshal` fills from a
tool_use's `input` object; an absent field decodes to the empty string
(the Go zero value). A `ContentItem`'s `input` holds the result of
`json.Unmarshal(content.Input, &input)`: `none` when the unmarshal errors,
in which case the Go local `input` keeps its zero value (`giZero`). -/

structure GenericInput where
  file_path : String := ""
  path : String := ""
  url : String := ""
  command : String := ""
  pattern : String := ""
  query : String := ""
  prompt : String := ""
  description : String := ""
  skill : String := ""
deriving DecidableEq, Repr

/-- The Go zero value of `GenericInput` (all fields empty). -/
def giZero : GenericInput := {}

/-- `firstNonEmpty`: first non-empty string of the argument list. -/
def firstNonEmpty (strs : List String) : String :=
  match strs.find? (fun s => s ≠ "") with
  | some s => s
  | none => ""

/-- `truncate`: truncate to `maxLen` with a `...` suffix. Go slices the
string by bytes; the claims only exercise it through `fallbackDisplay`,
where the model measures in characters. -/
def truncate (s : String) (maxLen : Nat) : String :=
  if s.length > maxLen then (s.toList.take maxLen).asString ++ "..." else s

/-- `GenericInput.formatGlob`: display string for the Glob tool. -/
def GenericInput.formatGlob (g : GenericInput) : String :=
  if g.pattern ≠ "" && g.path ≠ "" then g.path ++ "/" ++ g.pattern
  else firstNonEmpty [g.pattern, g.path]

/-- `GenericInput.formatGrep`: display string for the Grep tool. -/
def GenericInput.formatGrep (g : GenericInput) : String :=
  if g.pattern ≠ "" && g.path ≠ "" then g.pattern ++ " in " ++ g.path
  else firstNonEmpty [g.pattern, g.path]

/-- `GenericInput.fallbackDisplay`: priority order for unknown tools. -/
def GenericInput.fallbackDisplay (g : GenericInput) : String :=
  let s := firstNonEmpty
    [g.file_path, g.path, g.command, g.pattern, g.query, g.url, g.description]
  if s ≠ "" then s
  else if g.prompt ≠ "" then truncate g.prompt 100
  else g.skill

/-- `GenericInput.ExtractDisplayString`: the per-tool display string. -/
def GenericInput.ExtractDisplayString (g : GenericInput) (toolName : String) :
    String :=
  if toolName = "Bash" then g.command
  else if toolName ∈ ["Edit", "Write", "NotebookEdit", "Read"] then g.file_path
  else if toolName = "Glob" then g.formatGlob
  else if toolName = "Grep" then g.formatGrep
  else if toolName ∈ ["WebFetch", "WebSearch"] then firstNonEmpty [g.url, g.query]
  else if toolName = "Task" then g.description
  else if toolName = "Skill" then g.skill
  else g.fallbackDisplay

/-- `ContentItem`: one item of a record's `message.content` array. The
`tool_use`-side fields suffice for the claims; `id`/`tool_use_id`/`content`
are only read by the lazy `FetchToolInput` path, which no claim covers. -/
structure ContentItem where
  type : String
  name : String
  input : Option GenericInput
deriving DecidableEq, Repr

/-- `Message`: the `message` field of a record (the `role` field is never
read by the parser). -/
structure Message where
  content : List ContentItem
deriving DecidableEq, Repr

/-- `JSONLRecord`: one decoded JSONL line. -/
structure JSONLRecord where
  type : String
  timestamp : String
  uuid : String
  sessionId : String
  gitBranch : String
  cwd : String
  message : Option Message
deriving DecidableEq, Repr

/-- `CommandEntry` (`types.go`): one extracted tool invocation. Timestamps
are abstract instants (`Int`, the order-embedding image of `time.Time`). -/
structure CommandEntry where
  timestamp : Int
  toolName : String
  pattern : String
  rawCommand : String
  sessionId : String
  uuid : String
  lineNumber : Nat
  filePath : String
deriving DecidableEq, Repr

/-- `SessionMetadata` (`parser.go`). -/
structure SessionMetadata where
  gitBranch : String := ""
  cwd : String := ""
deriving DecidableEq, Repr

/-- The deterministic external functions the parser is uniform in:
`dec` is `encoding/json.Unmarshal` of one line into a `JSONLRecord`
(`none` on malformed JSON), `pts` is `time.Parse(time.RFC3339, ·)`
(`none` on parse failure), `now` is the instant `time.Now()` returns,
and `inc` is the configuration collaborator behind `ShouldInclude`. -/
structure Env where
  dec : List Char → Option JSONLRecord
  pts : String → Option Int
  now : Int
  inc : String → Bool

/-- `parseState` (`parser.go`): the in-progress parse. The Go struct's
`offset` field is mutated only by the `ParseSessionFileFrom` read loop, so
it is modelled there as the loop accumulator instead of a state field. -/
structure ParseState where
  commands : List CommandEntry
  meta : SessionMetadata
  seen : List String
  lineNumber : Nat
  filePath : String
deriving Repr

/-- `newParseState`. -/
def newParseState (filePath : String) (startLine : Nat) : ParseState :=
  { commands := [], meta := {}, seen := [], lineNumber := startLine,
    filePath := filePath }

/-- The display string `processToolUse` computes for a content item:
`ExtractDisplayString` when the input unmarshalled, with the tool name as
fallback when that leaves the empty string. -/
def contentRaw (content : ContentItem) : String :=
  let raw0 := match content.input with
    | some gi => gi.ExtractDisplayString content.name
    | none => ""
  if raw0 = "" then content.name else raw0

/-- The pattern `processToolUse` computes for a content item: `Bash` gets
the bash grammar over the (possibly zero-valued) unmarshalled `command`
field; every other tool name is its own pattern. -/
def contentPattern (content : ContentItem) : String :=
  if content.name = "Bash" then
    ExtractPattern "Bash" (content.input.getD giZero).command
  else content.name

/-- `parseState.processToolUse`: handle one content item of an assistant
record. Mirrors the Go control flow exactly: type guard, display-string
extraction with tool-name fallback, pattern extraction (the `Bash` branch
reads the possibly-zero-valued `input.Command`), the `ShouldInclude` filter,
dedup on the concatenated key `record.UUID + content.Name`, timestamp
parsing with `time.Now()` fallback, and the final non-empty guard. -/
def processToolUse (env : Env) (record : JSONLRecord) (content : ContentItem)
    (ps : ParseState) : ParseState :=
  if content.type ≠ "tool_use" then ps
  else
    let raw := contentRaw content
    let pattern := contentPattern content
    if ¬ env.inc pattern then ps
    else
      let entryKey := record.uuid ++ content.name
      if entryKey ∈ ps.seen then ps
      else
        let ps := { ps with seen := entryKey :: ps.seen }
        let ts := (env.pts record.timestamp).getD env.now
        if raw ≠ "" then
          { ps with commands := ps.commands ++
              [{ timestamp := ts, toolName := content.name, pattern := pattern,
                 rawCommand := raw, sessionId := record.sessionId,
                 uuid := record.uuid, lineNumber := ps.lineNumber,
                 filePath := ps.filePath }] }
        else ps

/-- `parseState.captureMetadata`: first-non-empty capture of cwd/branch. -/
def captureMetadata (record : JSONLRecord) (ps : ParseState) : ParseState :=
  let ps :=
    if record.cwd ≠ "" ∧ ps.meta.cwd = "" then
      { ps with meta := { ps.meta with cwd := record.cwd } }
    else ps
  if record.gitBranch ≠ "" ∧ ps.meta.gitBranch = "" then
    { ps with meta := { ps.meta with gitBranch := record.gitBranch } }
  else ps

/-- The tool_use loop of `processLine` over an assistant record's content. -/
def processContents (env : Env) (record : JSONLRecord)
    (items : List ContentItem) (ps : ParseState) : ParseState :=
  items.foldl (fun ps c => processToolUse env record c ps) ps

/-- The state evolution of `parseState.processLine`: bump the line number,
decode, capture metadata, and run the tool_use loop for assistant records
with a message. -/
def processLineState (env : Env) (line : List Char) (ps : ParseState) :
    ParseState :=
  let ps := { ps with lineNumber := ps.lineNumber + 1 }
  match env.dec line with
  | none => ps
  | some record =>
    let ps := captureMetadata record ps
    if record.type ≠ "assistant" then ps
    else
      match record.message with
      | none => ps
      | some msg => processContents env record msg.content ps

/-- `parseState.processLine`: parse one scanned line, returning the state
and the number of bytes the offset tracking charges for it
(`len(line) + 1` for the newline, computed up front in the source and
returned on every path). -/
def processLine (env : Env) (line : List Char) (ps : ParseState) :
    ParseState × Nat :=
  (processLineState env line ps, line.length + 1)

/-! Incremental file reading (`bufio.Scanner` with the default `ScanLines`
split function): tokens are the maximal newline-free segments; each token
has a single trailing carriage return removed; a final segment not
terminated by a newline is still delivered. -/

/-- Worker for `splitNl`: `acc` is the (reversed) current segment. On a
newline the segment closes; scanning stops when the remainder is empty, so
a trailing newline does not open a final empty segment. -/
def splitNlAux (acc : List Char) : List Char → List (List Char)
  | [] => [acc.reverse]
  | c :: cs =>
    if c = '\n' then
      acc.reverse :: (if cs = [] then [] else splitNlAux [] cs)
    else splitNlAux (c :: acc) cs

/-- The raw newline-separated segments of a file, newlines excluded
(an empty file has no segments). -/
def splitNl (f : List Char) : List (List Char) :=
  if f = [] then [] else splitNlAux [] f

/-- `bufio.dropCR`: remove one trailing carriage return, if present. -/
def dropCR (l : List Char) : List Char :=
  match l.getLast? with
  | some c => if c = '\r' then l.dropLast else l
  | none => l

/-- The tokens `scanner.Scan`/`scanner.Bytes` delivers for a file. -/
def scanTokens (f : List Char) : List (List Char) :=
  (splitNl f).map dropCR

/-- The `for scanner.Scan()` loop of `ParseSessionFile`: fold `processLine`
over the scanned tokens (the loop ignores the returned byte count). -/
def foldTokens (env : Env) (ts : List (List Char)) (ps : ParseState) :
    ParseState :=
  ts.foldl (fun ps t => (processLine env t ps).1) ps

/-- The `for scanner.Scan()` loop of `ParseSessionFileFrom`: the same fold,
also accumulating `ps.offset += processLine(...)`. -/
def foldTokensOff (env : Env) (ts : List (List Char))
    (p : ParseState × Nat) : ParseState × Nat :=
  ts.foldl (fun p t =>
    let r := processLine env t p.1
    (r.1, p.2 + r.2)) p

/-- `ParseSessionFile` (pure core): full parse of a file's content from
line 0. File-open errors are handled at the watcher layer (`FS` below). -/
def ParseSessionFile (env : Env) (path : String) (f : List Char) :
    List CommandEntry × SessionMetadata :=
  let ps := foldTokens env (scanTokens f) (newParseState path 0)
  (ps.commands, ps.meta)

/-- `ParseSessionFileFrom` (pure core): parse from a byte offset, returning
`(commands, metadata, new offset, new line number)`. Seeking to `offset`
and scanning to EOF reads exactly `f.drop offset`; `ps.offset` is the
second component of the fold accumulator. -/
def ParseSessionFileFrom (env : Env) (path : String) (f : List Char)
    (offset startLine : Nat) :
    List CommandEntry × SessionMetadata × Nat × Nat :=
  let s := foldTokensOff env (scanTokens (f.drop offset))
    (newParseState path startLine, offset)
  (s.1.commands, s.1.meta, s.2, s.1.lineNumber)

/-- Number of parsed entries carrying the dedup key `k` as the
concatenation `uuid ++ toolName`. -/
def countKey (l : List CommandEntry) (k : String) : Nat :=
  (l.filter (fun e => e.uuid ++ e.toolName = k)).length

/-- Number of parsed entries carrying the dedup pair `(u, n)` as
`(uuid, toolName)`. -/
def countPair (l : List CommandEntry) (u n : String) : Nat :=
  (l.filter (fun e => e.uuid = u ∧ e.toolName = n)).length

/-! Structural lemmas about one `processToolUse` step. -/

theorem processContents_cons (env : Env) (r : JSONLRecord)
    (c : ContentItem) (rest : List ContentItem) (ps : ParseState) :
    processContents env r (c :: rest) ps =
      processContents env r rest (processToolUse env r c ps) := rfl

theorem processToolUse_lineNumber (env : Env) (r : JSONLRecord)
    (c : ContentItem) (ps : ParseState) :
    (processToolUse env r c ps).lineNumber = ps.lineNumber := by
  simp only [processToolUse]
  split_ifs <;> rfl

theorem processToolUse_filePath (env : Env) (r : JSONLRecord)
    (c : ContentItem) (ps : ParseState) :
    (processToolUse env r c ps).filePath = ps.filePath := by
  simp only [processToolUse]
  split_ifs <;> rfl

theorem processToolUse_meta (env : Env) (r : JSONLRecord)
    (c : ContentItem) (ps : ParseState) :
    (processToolUse env r c ps).meta = ps.meta := by
  simp only [processToolUse]
  split_ifs <;> rfl

/-- A non-`tool_use` content item is a no-op. -/
theorem processToolUse_skip_type (env : Env) (r : JSONLRecord)
    (c : ContentItem) (ps : ParseState) (h : c.type ≠ "tool_use") :
    processToolUse env r c ps = ps := by
  simp only [processToolUse]
  rw [if_pos h]

/-- A content item whose pattern the configuration excludes is a no-op. -/
theorem processToolUse_skip_inc (env : Env) (r : JSONLRecord)
    (c : ContentItem) (ps : ParseState) (ht : c.type = "tool_use")
    (h : env.inc (contentPattern c) = false) :
    processToolUse env r c ps = ps := by
  simp only [processToolUse]
  rw [if_neg (by simp [ht]), if_pos (by simp [h])]

/-- An item whose dedup key is already seen is a no-op. -/
theorem processToolUse_skip_seen (env : Env) (r : JSONLRecord)
    (c : ContentItem) (ps : ParseState) (ht : c.type = "tool_use")
    (hinc : env.inc (contentPattern c) = true)
    (h : (r.uuid ++ c.name) ∈ ps.seen) :
    processToolUse env r c ps = ps := by
  simp only [processToolUse]
  rw [if_neg (by simp [ht]), if_neg (by simp [hinc]), if_pos h]

/-- When every guard passes, `processToolUse` appends one entry and pushes
the dedup key. -/
theorem processToolUse_append (env : Env) (r : JSONLRecord)
    (c : ContentItem) (ps : ParseState)
    (h1 : c.type = "tool_use") (h2 : env.inc (contentPattern c) = true)
    (h3 : (r.uuid ++ c.name) ∉ ps.seen) (h4 : contentRaw c ≠ "") :
    processToolUse env r c ps =
      { ps with
        commands := ps.commands ++
          [{ timestamp := (env.pts r.timestamp).getD env.now,
             toolName := c.name, pattern := contentPattern c,
             rawCommand := contentRaw c, sessionId := r.sessionId,
             uuid := r.uuid, lineNumber := ps.lineNumber,
             filePath := ps.filePath }],
        seen := (r.uuid ++ c.name) :: ps.seen } := by
  simp only [processToolUse]
  rw [if_neg (by simp [h1]), if_neg (by simp [h2]), if_neg h3, if_pos h4]

/-- When every guard passes but the display string is empty, only the dedup
key is pushed. -/
theorem processToolUse_push (env : Env) (r : JSONLRecord)
    (c : ContentItem) (ps : ParseState)
    (h1 : c.type = "tool_use") (h2 : env.inc (contentPattern c) = true)
    (h3 : (r.uuid ++ c.name) ∉ ps.seen) (h4 : contentRaw c = "") :
    processToolUse env r c ps = { ps with seen := (r.uuid ++ c.name) :: ps.seen } := by
  simp only [processToolUse]
  rw [if_neg (by simp [h1]), if_neg (by simp [h2]), if_neg h3,
      if_neg (by simp [h4])]

/-- A `processToolUse` step either leaves the seen set alone or pushes the
item's concatenated dedup key (and then only for a `tool_use` item whose
key was fresh). -/
theorem processToolUse_seen (env : Env) (r : JSONLRecord) (c : ContentItem)
    (ps : ParseState) :
    (processToolUse env r c ps).seen = ps.seen ∨
      (c.type = "tool_use" ∧ (r.uuid ++ c.name) ∉ ps.seen ∧
       (processToolUse env r c ps).seen = (r.uuid ++ c.name) :: ps.seen) := by
  by_cases ht : c.type = "tool_use"
  · cases hinc : env.inc (contentPattern c) with
    | false => rw [processToolUse_skip_inc env r c ps ht hinc]; exact Or.inl rfl
    | true =>
      by_cases hmem : (r.uuid ++ c.name) ∈ ps.seen
      · rw [processToolUse_skip_seen env r c ps ht hinc hmem]; exact Or.inl rfl
      · by_cases hraw : contentRaw c = ""
        · rw [processToolUse_push env r c ps ht hinc hmem hraw]
          exact Or.inr ⟨ht, hmem, rfl⟩
        · rw [processToolUse_append env r c ps ht hinc hmem hraw]
          exact Or.inr ⟨ht, hmem, rfl⟩
  · rw [processToolUse_skip_type env r c ps ht]; exact Or.inl rfl

/-- A `processToolUse` step either leaves the command list alone or appends
exactly one entry, whose fields are determined by the record, the content
item and the line position, and whose dedup key was fresh. -/
theorem processToolUse_commands (env : Env) (r : JSONLRecord)
    (c : ContentItem) (ps : ParseState) :
    (processToolUse env r c ps).commands = ps.commands ∨
      (c.type = "tool_use" ∧ contentRaw c ≠ "" ∧ (r.uuid ++ c.name) ∉ ps.seen ∧
       (processToolUse env r c ps).commands = ps.commands ++
         [{ timestamp := (env.pts r.timestamp).getD env.now,
            toolName := c.name, pattern := contentPattern c,
            rawCommand := contentRaw c, sessionId := r.sessionId,
            uuid := r.uuid, lineNumber := ps.lineNumber,
            filePath := ps.filePath }]) := by
  by_cases ht : c.type = "tool_use"
  · cases hinc : env.inc (contentPattern c) with
    | false => rw [processToolUse_skip_inc env r c ps ht hinc]; exact Or.inl rfl
    | true =>
      by_cases hmem : (r.uuid ++ c.name) ∈ ps.seen
      · rw [processToolUse_skip_seen env r c ps ht hinc hmem]; exact Or.inl rfl
      · by_cases hraw : contentRaw c = ""
        · rw [processToolUse_push env r c ps ht hinc hmem hraw]
          exact Or.inl rfl
        · rw [processToolUse_append env r c ps ht hinc hmem hraw]
          exact Or.inr ⟨ht, hraw, hmem, rfl⟩
  · rw [processToolUse_skip_type env r c ps ht]; exact Or.inl rfl

theorem captureMetadata_parts (r : JSONLRecord) (ps : ParseState) :
    (captureMetadata r ps).commands = ps.commands ∧
    (captureMetadata r ps).seen = ps.seen ∧
    (captureMetadata r ps).lineNumber = ps.lineNumber ∧
    (captureMetadata r ps).filePath = ps.filePath := by
  simp only [captureMetadata]
  split_ifs <;> exact ⟨rfl, rfl, rfl, rfl⟩

/-- The byte count a line is charged with is its length plus one,
independently of the parse state. -/
theorem processLine_snd (env : Env) (t : List Char) (ps : ParseState) :
    (processLine env t ps).2 = t.length + 1 := rfl

/-! Counting lemmas and the dedup-key invariant. -/

theorem string_append_left_cancel {u x y : String} (h : u ++ x = u ++ y) :
    x = y := by
  have hd : (u ++ x).data = (u ++ y).data := by rw [h]
  rw [String.data_append, String.data_append] at hd
  exact String.ext (List.append_cancel_left hd)

theorem countKey_append_one (l : List CommandEntry) (e : CommandEntry)
    (k : String) :
    countKey (l ++ [e]) k =
      countKey l k + (if e.uuid ++ e.toolName = k then 1 else 0) := by
  simp only [countKey, List.filter_append, List.length_append]
  split_ifs with h <;> simp [List.filter, h]

theorem countKey_eq_zero_of_not_mem (l : List CommandEntry) (k : String)
    (h : ∀ e ∈ l, e.uuid ++ e.toolName ≠ k) : countKey l k = 0 := by
  simp only [countKey, List.length_eq_zero, List.filter_eq_nil]
  intro e he
  simpa using h e he

theorem length_filter_le_filter {α : Type} (p q : α → Bool)
    (h : ∀ a, p a = true → q a = true) (l : List α) :
    (l.filter p).length ≤ (l.filter q).length := by
  induction l with
  | nil => simp
  | cons x xs ih =>
    simp only [List.filter]
    cases hp : p x
    · cases hq : q x
      · exact ih
      · exact le_trans ih (Nat.le_succ _)
    · rw [h x hp]
      simpa using ih

theorem countPair_le_countKey (l : List CommandEntry) (u n : String) :
    countPair l u n ≤ countKey l (u ++ n) := by
  apply length_filter_le_filter
  intro e he
  simp only [decide_eq_true_eq] at he ⊢
  rw [he.1, he.2]

/-- The dedup-key invariant of a parse state: every emitted entry's
concatenated key is in the seen set, and no key appears twice. -/
def KeyInv (ps : ParseState) : Prop :=
  (∀ e ∈ ps.commands, (e.uuid ++ e.toolName) ∈ ps.seen) ∧
  ∀ k, countKey ps.commands k ≤ 1

theorem keyInv_processToolUse (env : Env) (r : JSONLRecord)
    (c : ContentItem) (ps : ParseState) (h : KeyInv ps) :
    KeyInv (processToolUse env r c ps) := by
  by_cases ht : c.type = "tool_use"
  · cases hinc : env.inc (contentPattern c) with
    | false => rw [processToolUse_skip_inc env r c ps ht hinc]; exact h
    | true =>
      by_cases hmem : (r.uuid ++ c.name) ∈ ps.seen
      · rw [processToolUse_skip_seen env r c ps ht hinc hmem]; exact h
      · by_cases hraw : contentRaw c = ""
        · rw [processToolUse_push env r c ps ht hinc hmem hraw]
          exact ⟨fun e he => List.mem_cons_of_mem _ (h.1 e he), h.2⟩
        · rw [processToolUse_append env r c ps ht hinc hmem hraw]
          constructor
          · intro e he
            simp only [List.mem_append, List.mem_singleton] at he
            rcases he with he | he
            · exact List.mem_cons_of_mem _ (h.1 e he)
            · subst he; exact List.mem_cons_self _ _
          · intro k
            rw [show ({ ps with
                commands := ps.commands ++
                  [{ timestamp := (env.pts r.timestamp).getD env.now,
                     toolName := c.name, pattern := contentPattern c,
                     rawCommand := contentRaw c, sessionId := r.sessionId,
                     uuid := r.uuid, lineNumber := ps.lineNumber,
                     filePath := ps.filePath }],
                seen := (r.uuid ++ c.name) :: ps.seen } : ParseState).commands
              = ps.commands ++
                  [{ timestamp := (env.pts r.timestamp).getD env.now,
                     toolName := c.name, pattern := contentPattern c,
                     rawCommand := contentRaw c, sessionId := r.sessionId,
                     uuid := r.uuid, lineNumber := ps.lineNumber,
                     filePath := ps.filePath }] from rfl]
            rw [countKey_append_one]
            by_cases hk : r.uuid ++ c.name = k
            · have hzero : countKey ps.commands k = 0 := by
                apply countKey_eq_zero_of_not_mem
                intro e he hek
                exact hmem (hk ▸ hek ▸ h.1 e he)
              simp [hzero, hk]
            · simp only [if_neg hk]
              simpa using h.2 k
  · rw [processToolUse_skip_type env r c ps ht]; exact h

theorem keyInv_captureMetadata (r : JSONLRecord) (ps : ParseState)
    (h : KeyInv ps) : KeyInv (captureMetadata r ps) := by
  obtain ⟨hc, hs, _, _⟩ := captureMetadata_parts r ps
  exact ⟨fun e he => hs ▸ h.1 e (hc ▸ he), fun k => hc ▸ h.2 k⟩

theorem keyInv_processContents (env : Env) (r : JSONLRecord)
    (items : List ContentItem) :
    ∀ ps : ParseState, KeyInv ps → KeyInv (processContents env r items ps) := by
  induction items with
  | nil => intro ps h; exact h
  | cons c rest ih =>
    intro ps h
    exact ih _ (keyInv_processToolUse env r c ps h)

theorem keyInv_bump (ps : ParseState) (n : Nat) (h : KeyInv ps) :
    KeyInv { ps with lineNumber := n } := h

theorem keyInv_processLineState (env : Env) (t : List Char)
    (ps : ParseState) (h : KeyInv ps) :
    KeyInv (processLineState env t ps) := by
  unfold processLineState
  cases env.dec t with
  | none => exact h
  | some record =>
    dsimp only
    have h1 : KeyInv (captureMetadata record
        { ps with lineNumber := ps.lineNumber + 1 }) :=
      keyInv_captureMetadata _ _ h
    split_ifs with ht
    · exact h1
    · cases record.message with
      | none => exact h1
      | some msg => exact keyInv_processContents env record msg.content _ h1

theorem keyInv_foldTokens (env : Env) (ts : List (List Char)) :
    ∀ ps : ParseState, KeyInv ps → KeyInv (foldTokens env ts ps) := by
  induction ts with
  | nil => intro ps h; exact h
  | cons t rest ih =>
    intro ps h
    exact ih _ (keyInv_processLineState env t ps h)

theorem keyInv_newParseState (path : String) (startLine : Nat) :
    KeyInv (newParseState path startLine) := by
  constructor
  · intro e he; simp [newParseState] at he
  · intro k; simp [newParseState, countKey]

theorem foldTokensOff_fst (env : Env) (ts : List (List Char)) :
    ∀ p : ParseState × Nat, (foldTokensOff env ts p).1 = foldTokens env ts p.1 := by
  induction ts with
  | nil => intro p; rfl
  | cons t rest ih =>
    intro p
    exact ih _

/-- The parsed command list of `ParseSessionFileFrom` is the plain
`foldTokens` run over the post-seek tokens. -/
theorem parseFrom_commands (env : Env) (path : String) (f : List Char)
    (off ln : Nat) :
    (ParseSessionFileFrom env path f off ln).1 =
      (foldTokens env (scanTokens (f.drop off)) (newParseState path ln)).commands := by
  unfold ParseSessionFileFrom
  dsimp only
  rw [foldTokensOff_fst]

/-! Effect of a step on a fixed dedup key. -/

theorem countKey_append_entry_ne (l : List CommandEntry) (e : CommandEntry)
    (k : String) (h : e.uuid ++ e.toolName ≠ k) :
    countKey (l ++ [e]) k = countKey l k := by
  rw [countKey_append_one, if_neg h]
  rfl

/-- Once a key is seen, later items never add entries with that key and
never remove it from the seen set. -/
theorem stay_processToolUse (env : Env) (r : JSONLRecord) (c : ContentItem)
    (ps : ParseState) (k : String) (hk : k ∈ ps.seen) :
    countKey (processToolUse env r c ps).commands k = countKey ps.commands k ∧
    k ∈ (processToolUse env r c ps).seen := by
  by_cases ht : c.type = "tool_use"
  · cases hinc : env.inc (contentPattern c) with
    | false => rw [processToolUse_skip_inc env r c ps ht hinc]; exact ⟨rfl, hk⟩
    | true =>
      by_cases hmem : (r.uuid ++ c.name) ∈ ps.seen
      · rw [processToolUse_skip_seen env r c ps ht hinc hmem]; exact ⟨rfl, hk⟩
      · have hne : ∀ e : CommandEntry, e.uuid = r.uuid → e.toolName = c.name →
            e.uuid ++ e.toolName ≠ k := by
          intro e h1 h2 hEq
          rw [h1, h2] at hEq
          exact hmem (hEq.symm ▸ hk)
        by_cases hraw : contentRaw c = ""
        · rw [processToolUse_push env r c ps ht hinc hmem hraw]
          exact ⟨rfl, List.mem_cons_of_mem _ hk⟩
        · rw [processToolUse_append env r c ps ht hinc hmem hraw]
          refine ⟨countKey_append_entry_ne _ _ _ (hne _ rfl rfl), ?_⟩
          exact List.mem_cons_of_mem _ hk
  · rw [processToolUse_skip_type env r c ps ht]; exact ⟨rfl, hk⟩

theorem stay_processContents (env : Env) (r : JSONLRecord) (k : String) :
    ∀ (items : List ContentItem) (ps : ParseState), k ∈ ps.seen →
    countKey (processContents env r items ps).commands k = countKey ps.commands k ∧
    k ∈ (processContents env r items ps).seen := by
  intro items
  induction items with
  | nil => intro ps hk; exact ⟨rfl, hk⟩
  | cons c rest ih =>
    intro ps hk
    obtain ⟨h1, h2⟩ := stay_processToolUse env r c ps k hk
    obtain ⟨h3, h4⟩ := ih _ h2
    exact ⟨h3.trans h1, h4⟩

/-- An item with a different dedup key neither changes the count of `k`
nor the seen status of `k`. -/
theorem other_processToolUse (env : Env) (r : JSONLRecord) (c : ContentItem)
    (ps : ParseState) (k : String) (hne : r.uuid ++ c.name ≠ k) :
    countKey (processToolUse env r c ps).commands k = countKey ps.commands k ∧
    (k ∈ (processToolUse env r c ps).seen ↔ k ∈ ps.seen) := by
  by_cases ht : c.type = "tool_use"
  · cases hinc : env.inc (contentPattern c) with
    | false =>
      rw [processToolUse_skip_inc env r c ps ht hinc]; exact ⟨rfl, Iff.rfl⟩
    | true =>
      by_cases hmem : (r.uuid ++ c.name) ∈ ps.seen
      · rw [processToolUse_skip_seen env r c ps ht hinc hmem]
        exact ⟨rfl, Iff.rfl⟩
      · have hmemIff : k ∈ (r.uuid ++ c.name) :: ps.seen ↔ k ∈ ps.seen := by
          simp only [List.mem_cons, or_iff_right_iff_imp]
          intro hEq
          exact absurd hEq.symm hne
        by_cases hraw : contentRaw c = ""
        · rw [processToolUse_push env r c ps ht hinc hmem hraw]
          exact ⟨rfl, hmemIff⟩
        · rw [processToolUse_append env r c ps ht hinc hmem hraw]
          refine ⟨countKey_append_entry_ne _ _ _ ?_, hmemIff⟩
          exact hne
  · rw [processToolUse_skip_type env r c ps ht]; exact ⟨rfl, Iff.rfl⟩

/-- Exactly one entry with key `uuid ++ n` comes out of an assistant
record's content loop, provided the key is fresh, some `tool_use` item
named `n` passes the inclusion filter, and every such passing item has a
non-empty display string. -/
theorem one_processContents (env : Env) (r : JSONLRecord) (n : String) :
    ∀ (items : List ContentItem) (ps : ParseState),
    (r.uuid ++ n) ∉ ps.seen →
    countKey ps.commands (r.uuid ++ n) = 0 →
    (∃ c ∈ items, c.type = "tool_use" ∧ c.name = n ∧
       env.inc (contentPattern c) = true) →
    (∀ c ∈ items, c.type = "tool_use" → c.name = n →
       env.inc (contentPattern c) = true → contentRaw c ≠ "") →
    countKey (processContents env r items ps).commands (r.uuid ++ n) = 1 := by
  intro items
  induction items with
  | nil =>
    intro ps _ _ hex _
    simp at hex
  | cons c rest ih =>
    intro ps h1 h2 hex hall
    have hstep : processContents env r (c :: rest) ps =
        processContents env r rest (processToolUse env r c ps) := rfl
    by_cases hc : c.type = "tool_use" ∧ c.name = n ∧
        env.inc (contentPattern c) = true
    · obtain ⟨ht, hn, hinc⟩ := hc
      have hraw : contentRaw c ≠ "" :=
        hall c (List.mem_cons_self _ _) ht hn hinc
      have h1' : (r.uuid ++ c.name) ∉ ps.seen := by rw [hn]; exact h1
      have happ := processToolUse_append env r c ps ht hinc h1' hraw
      rw [hstep, happ]
      have hcount : countKey ({ ps with
          commands := ps.commands ++
            [{ timestamp := (env.pts r.timestamp).getD env.now,
               toolName := c.name, pattern := contentPattern c,
               rawCommand := contentRaw c, sessionId := r.sessionId,
               uuid := r.uuid, lineNumber := ps.lineNumber,
               filePath := ps.filePath }],
          seen := (r.uuid ++ c.name) :: ps.seen } : ParseState).commands
            (r.uuid ++ n) = 1 := by
        show countKey (ps.commands ++ _) (r.uuid ++ n) = 1
        rw [countKey_append_one, h2, if_pos (by rw [hn])]
      have hmem : (r.uuid ++ n) ∈ ({ ps with
          commands := ps.commands ++
            [{ timestamp := (env.pts r.timestamp).getD env.now,
               toolName := c.name, pattern := contentPattern c,
               rawCommand := contentRaw c, sessionId := r.sessionId,
               uuid := r.uuid, lineNumber := ps.lineNumber,
               filePath := ps.filePath }],
          seen := (r.uuid ++ c.name) :: ps.seen } : ParseState).seen := by
        show (r.uuid ++ n) ∈ (r.uuid ++ c.name) :: ps.seen
        rw [hn]; exact List.mem_cons_self _ _
      obtain ⟨hc1, _⟩ := stay_processContents env r (r.uuid ++ n) rest _ hmem
      rw [hc1, hcount]
    · -- the head item does not pass; it cannot touch the key
      have hex' : ∃ c' ∈ rest, c'.type = "tool_use" ∧ c'.name = n ∧
          env.inc (contentPattern c') = true := by
        rcases hex with ⟨c', hc', hp⟩
        rcases List.mem_cons.mp hc' with rfl | hc'
        · exact absurd hp hc
        · exact ⟨c', hc', hp⟩
      have hall' : ∀ c' ∈ rest, c'.type = "tool_use" → c'.name = n →
          env.inc (contentPattern c') = true → contentRaw c' ≠ "" :=
        fun c' hc' => hall c' (List.mem_cons_of_mem _ hc')
      by_cases ht : c.type = "tool_use"
      · cases hinc : env.inc (contentPattern c) with
        | false =>
          rw [hstep, processToolUse_skip_inc env r c ps ht hinc]
          exact ih ps h1 h2 hex' hall'
        | true =>
          have hn : c.name ≠ n := by
            intro hn
            exact hc ⟨ht, hn, hinc⟩
          have hne : r.uuid ++ c.name ≠ r.uuid ++ n := by
            intro h
            exact hn (string_append_left_cancel h)
          obtain ⟨hcnt, hiff⟩ := other_processToolUse env r c ps _ hne
          rw [hstep]
          exact ih _ (fun h => h1 (hiff.mp h)) (hcnt.trans h2) hex' hall'
      · rw [hstep, processToolUse_skip_type env r c ps ht]
        exact ih ps h1 h2 hex' hall'

/-! Entries always carry a non-empty display string. -/

theorem raw_processContents (env : Env) (r : JSONLRecord)
    (items : List ContentItem) :
    ∀ ps : ParseState, (∀ e ∈ ps.commands, e.rawCommand ≠ "") →
    ∀ e ∈ (processContents env r items ps).commands, e.rawCommand ≠ "" := by
  induction items with
  | nil => intro ps h; exact h
  | cons c rest ih =>
    intro ps h
    apply ih
    rcases processToolUse_commands env r c ps with hc | ⟨_, hraw, _, hc⟩ <;>
      rw [hc]
    · exact h
    · intro e he
      rcases List.mem_append.mp he with he | he
      · exact h e he
      · simp only [List.mem_singleton] at he
        subst he
        exact hraw

theorem raw_processLineState (env : Env) (t : List Char) (ps : ParseState)
    (h : ∀ e ∈ ps.commands, e.rawCommand ≠ "") :
    ∀ e ∈ (processLineState env t ps).commands, e.rawCommand ≠ "" := by
  unfold processLineState
  cases env.dec t with
  | none => exact h
  | some record =>
    dsimp only
    have hcm := (captureMetadata_parts record
      { ps with lineNumber := ps.lineNumber + 1 }).1
    split_ifs with ht
    · rw [hcm]; exact h
    · cases record.message with
      | none => rw [hcm]; exact h
      | some msg =>
        apply raw_processContents
        rw [hcm]; exact h

theorem raw_foldTokens (env : Env) (ts : List (List Char)) :
    ∀ ps : ParseState, (∀ e ∈ ps.commands, e.rawCommand ≠ "") →
    ∀ e ∈ (foldTokens env ts ps).commands, e.rawCommand ≠ "" := by
  induction ts with
  | nil => intro ps h; exact h
  | cons t rest ih =>
    intro ps h
    exact ih _ (raw_processLineState env t ps h)

/-! Concrete fixtures used by witnesses and counterexamples. -/

/-- A `tool_use` content item invoking `Bash` with `git status`. -/
def tuBash : ContentItem :=
  { type := "tool_use", name := "Bash",
    input := some { giZero with command := "git status" } }

/-- An assistant record with uuid `u1` carrying `tuBash` twice (one
assistant turn emitting the same tool twice). -/
def recW : JSONLRecord :=
  { type := "assistant", timestamp := "T", uuid := "u1", sessionId := "s",
    gitBranch := "main", cwd := "/w",
    message := some { content := [tuBash, tuBash] } }

/-- An environment whose decoder recognizes the one-character line `w` as
`recW`, with no excluded patterns and an unparseable-timestamp clock of 7. -/
def envW : Env :=
  { dec := fun l => if l = ['w'] then some recW else none,
    pts := fun _ => none, now := 7, inc := fun _ => true }

/-- The single entry `envW` produces for the file `w` plus newline. -/
def entW : CommandEntry :=
  { timestamp := 7, toolName := "Bash", pattern := "Bash(git:status:*)",
    rawCommand := "git status", sessionId := "s", uuid := "u1",
    lineNumber := 1, filePath := "p" }

/-- First colliding record: uuid `ab`, one `tool_use` named `c`. -/
def recColA : JSONLRecord :=
  { type := "assistant", timestamp := "", uuid := "ab", sessionId := "s",
    gitBranch := "", cwd := "",
    message := some { content := [{ type := "tool_use", name := "c",
                                    input := none }] } }

/-- Second colliding record: uuid `a`, two `tool_use` items named `bc` —
its concatenated dedup key `a ++ bc` equals `recColA`'s `ab ++ c`. -/
def recColB : JSONLRecord :=
  { type := "assistant", timestamp := "", uuid := "a", sessionId := "s",
    gitBranch := "", cwd := "",
    message := some { content := [{ type := "tool_use", name := "bc",
                                    input := none },
                                  { type := "tool_use", name := "bc",
                                    input := none }] } }

/-- Decoder mapping line `1` to `recColA` and line `2` to `recColB`;
nothing is excluded. -/
def envCol : Env :=
  { dec := fun l => if l = ['1'] then some recColA
      else if l = ['2'] then some recColB else none,
    pts := fun _ => none, now := 0, inc := fun _ => true }

/-! Claim C5. -/

/-- Claim C5: `ExtractPattern` satisfies the five example equalities of the
specification, and for every tool name other than `Bash` the returned
pattern is the tool name verbatim. -/
theorem c5_extract_pattern :
    (ExtractPattern "Bash" "git status" = "Bash(git:status:*)" ∧
     ExtractPattern "Bash" "sudo rm -rf /tmp/x" = "Bash(sudo:rm:*)" ∧
     ExtractPattern "Bash" "FOO=1 BAR=2 go test ./..." = "Bash(go:test:*)" ∧
     ExtractPattern "Bash" "" = "Bash" ∧
     ExtractPattern "Edit" "/a/b.go" = "Edit") ∧
    ∀ toolName input, toolName ≠ "Bash" →
      ExtractPattern toolName input = toolName := by
  constructor
  · exact ⟨by decide, by decide, by decide, by decide, by decide⟩
  · intro toolName input h
    simp [ExtractPattern, h]

/-- Witness instantiating the non-`Bash` clause of C5 at the `Write` tool. -/
theorem c5_extract_pattern_witness :
    ExtractPattern "Write" "/tmp/out.go" = "Write" :=
  c5_extract_pattern.2 "Write" "/tmp/out.go" (by decide)

/-! Claim C9. -/

/-- Claim C9: every `CommandEntry` returned by `ParseSessionFile` or
`ParseSessionFileFrom` has a non-empty `RawCommand` — when no display
string can be extracted the tool name is substituted, and an entry whose
display string and tool name are both empty is dropped, so an emitted
entry is never empty. -/
theorem c9_raw_nonempty :
    (∀ (env : Env) (path : String) (f : List Char),
       ∀ e ∈ (ParseSessionFile env path f).1, e.rawCommand ≠ "") ∧
    (∀ (env : Env) (path : String) (f : List Char) (off ln : Nat),
       ∀ e ∈ (ParseSessionFileFrom env path f off ln).1, e.rawCommand ≠ "") := by
  constructor
  · intro env path f e he
    have heq : (ParseSessionFile env path f).1 =
        (foldTokens env (scanTokens f) (newParseState path 0)).commands := rfl
    rw [heq] at he
    refine raw_foldTokens env _ _ ?_ e he
    intro e' he'
    simp [newParseState] at he'
  · intro env path f off ln e he
    rw [parseFrom_commands] at he
    refine raw_foldTokens env _ _ ?_ e he
    intro e' he'
    simp [newParseState] at he'

/-- Witness for C9: the concrete run of `envW` emits `entW`, and the claim
theorem applied to it yields a non-empty display string. -/
theorem c9_raw_nonempty_witness : entW.rawCommand ≠ "" :=
  c9_raw_nonempty.1 envW "p" ['w', '\n'] entW (by decide)

/-! Claim C3. -/

/-- Claim C3 (amended): within a single parse pass, at most one
`CommandEntry` is produced per `(uuid, tool name)` pair; and exactly one is
produced from an assistant record's content loop for the pair `(uuid, n)`
whenever the concatenated key `uuid ++ n` is fresh, some `tool_use` item
named `n` passes the inclusion filter, and every such passing item yields a
non-empty display string. (As originally stated the claim is refuted by
`c3_dedup_counterexample`: the concatenated key is not injective in the
pair, and an excluded pattern yields zero entries rather than one.) -/
theorem c3_dedup_amended :
    (∀ (env : Env) (path : String) (f : List Char) (u n : String),
       countPair (ParseSessionFile env path f).1 u n ≤ 1) ∧
    (∀ (env : Env) (r : JSONLRecord) (items : List ContentItem)
       (ps : ParseState) (n : String),
       (r.uuid ++ n) ∉ ps.seen →
       countKey ps.commands (r.uuid ++ n) = 0 →
       (∃ c ∈ items, c.type = "tool_use" ∧ c.name = n ∧
          env.inc (contentPattern c) = true) →
       (∀ c ∈ items, c.type = "tool_use" → c.name = n →
          env.inc (contentPattern c) = true → contentRaw c ≠ "") →
       countKey (processContents env r items ps).commands (r.uuid ++ n) = 1) := by
  constructor
  · intro env path f u n
    have hinv := (keyInv_foldTokens env (scanTokens f) _
      (keyInv_newParseState path 0)).2 (u ++ n)
    have heq : (ParseSessionFile env path f).1 =
        (foldTokens env (scanTokens f) (newParseState path 0)).commands := rfl
    rw [heq]
    exact le_trans (countPair_le_countKey _ u n) hinv
  · intro env r items ps n h1 h2 hex hall
    exact one_processContents env r n items ps h1 h2 hex hall

/-- Witness for C3: one assistant turn (`recW`) emitting the same tool
twice yields exactly one entry for the pair, by the claim theorem. -/
theorem c3_dedup_amended_witness :
    countKey (processContents envW recW [tuBash, tuBash]
      (newParseState "p" 0)).commands ("u1" ++ "Bash") = 1 :=
  c3_dedup_amended.2 envW recW [tuBash, tuBash] (newParseState "p" 0) "Bash"
    (by decide) (by decide) (by decide) (by decide)

/-- Counterexample refuting C3 as stated: `recColB` is an assistant record
with two `tool_use` items sharing uuid `a` and tool name `bc`, yet the pass
over the two-line file produces zero entries for the pair `(a, bc)` — the
concatenated key `abc` was already consumed by `recColA` (uuid `ab`, tool
`c`), so concatenation does not implement deduplication by the pair. -/
theorem c3_dedup_counterexample :
    ((recColB.message.getD { content := [] }).content.filter
        (fun c => c.type = "tool_use" ∧ c.name = "bc")).length = 2 ∧
    countPair (ParseSessionFile envCol "p" ("1\n2\n".toList)).1 "a" "bc" = 0 := by
  decide

/-! Offset accounting (claims C10 and C2). -/

/-- The total number of bytes the offset tracking charges for a token list:
each token costs its length plus one newline byte. -/
def totalLen (ts : List (List Char)) : Nat :=
  (ts.map (fun t => t.length + 1)).sum

theorem totalLen_cons (t : List Char) (ts : List (List Char)) :
    totalLen (t :: ts) = t.length + 1 + totalLen ts := by
  simp [totalLen]

/-- No raw segment of the file ends in a carriage return (when one does,
`bufio.ScanLines` strips it from the token while the offset tracking counts
only the stripped bytes). -/
def noCRPieces (f : List Char) : Prop :=
  ∀ p ∈ splitNl f, p.getLast? ≠ some '\r'

instance noCRPiecesDecidable (f : List Char) : Decidable (noCRPieces f) :=
  inferInstanceAs (Decidable (∀ p ∈ splitNl f, p.getLast? ≠ some '\r'))

theorem totalLen_splitNlAux (f : List Char) :
    ∀ acc : List Char, f ≠ [] →
    totalLen (splitNlAux acc f) =
      acc.length + f.length + (if f.getLast? = some '\n' then 0 else 1) := by
  induction f with
  | nil => intro acc h; exact absurd rfl h
  | cons c cs ih =>
    intro acc _
    by_cases hc : c = '\n'
    · subst hc
      by_cases hcs : cs = []
      · subst hcs
        simp [splitNlAux, totalLen]
      · rw [show splitNlAux acc ('\n' :: cs) =
            acc.reverse :: splitNlAux [] cs from by
          simp [splitNlAux, hcs]]
        rw [totalLen_cons, List.length_reverse, ih [] hcs]
        obtain ⟨d, ds, rfl⟩ := List.exists_cons_of_ne_nil hcs
        rw [List.getLast?_cons_cons]
        simp only [List.length_nil, List.length_cons]
        split_ifs <;> omega
    · by_cases hcs : cs = []
      · subst hcs
        have hg : ([c] : List Char).getLast? = some c := rfl
        rw [show splitNlAux acc [c] = [(c :: acc).reverse] from by
          simp [splitNlAux, hc]]
        rw [hg]
        rw [if_neg (by simpa using hc)]
        simp [totalLen]
      · rw [show splitNlAux acc (c :: cs) = splitNlAux (c :: acc) cs from by
          simp [splitNlAux, hc]]
        rw [ih (c :: acc) hcs]
        obtain ⟨d, ds, rfl⟩ := List.exists_cons_of_ne_nil hcs
        rw [List.getLast?_cons_cons]
        simp only [List.length_cons]
        split_ifs <;> omega

theorem totalLen_splitNl (f : List Char) (h : f ≠ []) :
    totalLen (splitNl f) =
      f.length + (if f.getLast? = some '\n' then 0 else 1) := by
  unfold splitNl
  rw [if_neg h, totalLen_splitNlAux f [] h]
  simp

theorem dropCR_eq_self (p : List Char) (h : p.getLast? ≠ some '\r') :
    dropCR p = p := by
  unfold dropCR
  cases hl : p.getLast? with
  | none => rfl
  | some c =>
    dsimp only
    rw [if_neg]
    intro hc
    exact h (hc ▸ hl)

theorem totalLen_map_dropCR (ts : List (List Char))
    (h : ∀ p ∈ ts, p.getLast? ≠ some '\r') :
    totalLen (ts.map dropCR) = totalLen ts := by
  induction ts with
  | nil => rfl
  | cons t rest ih =>
    rw [List.map_cons, totalLen_cons, totalLen_cons,
        dropCR_eq_self t (h t (List.mem_cons_self _ _)),
        ih (fun p hp => h p (List.mem_cons_of_mem _ hp))]

theorem totalLen_scanTokens (f : List Char) (h : noCRPieces f) :
    totalLen (scanTokens f) = totalLen (splitNl f) :=
  totalLen_map_dropCR _ h

theorem foldTokensOff_snd (env : Env) (ts : List (List Char)) :
    ∀ (ps : ParseState) (o : Nat),
    (foldTokensOff env ts (ps, o)).2 = o + totalLen ts := by
  induction ts with
  | nil => intro ps o; simp [foldTokensOff, totalLen]
  | cons t rest ih =>
    intro ps o
    have hstep : foldTokensOff env (t :: rest) (ps, o) =
        foldTokensOff env rest ((processLine env t ps).1, o + (t.length + 1)) := rfl
    rw [hstep, ih, totalLen_cons]
    omega

/-- The returned offset is the input offset plus the charged bytes of the
scanned tokens. -/
theorem parseFrom_offset (env : Env) (path : String) (f : List Char)
    (off ln : Nat) :
    (ParseSessionFileFrom env path f off ln).2.2.1 =
      off + totalLen (scanTokens (f.drop off)) := by
  unfold ParseSessionFileFrom
  dsimp only
  rw [show (foldTokensOff env (scanTokens (f.drop off))
      (newParseState path ln, off)) =
    foldTokensOff env (scanTokens (f.drop off))
      (newParseState path ln, off) from rfl]
  exact foldTokensOff_snd env _ _ _

/-- A read that starts at or past the end of file scans nothing. -/
theorem parseFrom_of_ge (env : Env) (path : String) (f : List Char)
    (off ln : Nat) (h : f.length ≤ off) :
    ParseSessionFileFrom env path f off ln = ([], {}, off, ln) := by
  unfold ParseSessionFileFrom
  rw [List.drop_eq_nil_of_le h]
  rfl

/-- Claim C10 (amended): for a file none of whose lines ends in a carriage
return, resuming from offset 0 returns exactly the file size when the file
ends with a newline, and the file size plus one when the final line is
unterminated; and in all cases the returned offset is at least the input
offset. (As stated, without the carriage-return proviso, the claim is
refuted by `c10_offset_counterexample`.) -/
theorem c10_offset_accounting :
    (∀ (env : Env) (path : String) (f : List Char), noCRPieces f →
       (f.getLast? = some '\n' →
          (ParseSessionFileFrom env path f 0 0).2.2.1 = f.length) ∧
       (f ≠ [] → f.getLast? ≠ some '\n' →
          (ParseSessionFileFrom env path f 0 0).2.2.1 = f.length + 1)) ∧
    (∀ (env : Env) (path : String) (f : List Char) (off ln : Nat),
       off ≤ (ParseSessionFileFrom env path f off ln).2.2.1) := by
  constructor
  · intro env path f hcr
    have hoff : (ParseSessionFileFrom env path f 0 0).2.2.1 =
        totalLen (scanTokens f) := by
      rw [parseFrom_offset]
      simp
    constructor
    · intro hnl
      have hne : f ≠ [] := by
        intro h
        subst h
        simp at hnl
      rw [hoff, totalLen_scanTokens f hcr, totalLen_splitNl f hne, if_pos hnl]
      omega
    · intro hne hnl
      rw [hoff, totalLen_scanTokens f hcr, totalLen_splitNl f hne, if_neg hnl]
  · intro env path f off ln
    rw [parseFrom_offset]
    exact Nat.le_add_right _ _

/-- Witness for C10 at a newline-terminated and an unterminated file. -/
theorem c10_offset_accounting_witness :
    (ParseSessionFileFrom envW "p" ("w\ncd\n".toList) 0 0).2.2.1 = 5 ∧
    (ParseSessionFileFrom envW "p" ("w\ncd".toList) 0 0).2.2.1 = 5 ∧
    (3 : Nat) ≤ (ParseSessionFileFrom envW "p" ("w\ncd".toList) 3 1).2.2.1 := by
  refine ⟨?_, ?_, ?_⟩
  · exact (c10_offset_accounting.1 envW "p" ("w\ncd\n".toList) (by decide)).1
      (by decide)
  · exact (c10_offset_accounting.1 envW "p" ("w\ncd".toList) (by decide)).2
      (by decide) (by decide)
  · exact c10_offset_accounting.2 envW "p" ("w\ncd".toList) 3 1

/-- Counterexample refuting C10 as stated: the two-byte file `a` + CR has
no trailing newline, yet the returned offset is 2, not size + 1 = 3 — the
scanner strips the carriage return before the length is counted. -/
theorem c10_offset_counterexample :
    (ParseSessionFileFrom envW "p" ['a', '\r'] 0 0).2.2.1 = 2 ∧
    (['a', '\r'] : List Char).length + 1 = 3 := by
  decide

/-- Claim C2 (amended): rereading from the offset and line number returned
by a previous `ParseSessionFileFrom` call, with no intervening writes,
returns zero new entries and echoes the offset and line number — provided
no line in the portion the previous call scanned ends in a carriage
return. (As stated, without that proviso, the claim is refuted by
`c2_idempotent_counterexample`.) -/
theorem c2_idempotent :
    ∀ (env : Env) (path : String) (f : List Char) (off ln : Nat),
      noCRPieces (f.drop off) →
      ParseSessionFileFrom env path f
          (ParseSessionFileFrom env path f off ln).2.2.1
          (ParseSessionFileFrom env path f off ln).2.2.2 =
        ([], {}, (ParseSessionFileFrom env path f off ln).2.2.1,
         (ParseSessionFileFrom env path f off ln).2.2.2) := by
  intro env path f off ln hcr
  apply parseFrom_of_ge
  rw [parseFrom_offset]
  by_cases hg : f.drop off = []
  · have : f.length ≤ off := by
      have := congrArg List.length hg
      simp at this
      omega
    omega
  · have h1 : totalLen (scanTokens (f.drop off)) =
        totalLen (splitNl (f.drop off)) := totalLen_scanTokens _ hcr
    have h2 := totalLen_splitNl (f.drop off) hg
    have h3 : (f.drop off).length = f.length - off := by simp
    have h4 : (f.drop off).length ≤ totalLen (splitNl (f.drop off)) := by
      rw [h2]
      split_ifs <;> omega
    omega

/-- Witness for C2 on a two-line file read from offset 0. -/
theorem c2_idempotent_witness :
    ParseSessionFileFrom envW "p" ("w\ncd".toList)
        (ParseSessionFileFrom envW "p" ("w\ncd".toList) 0 0).2.2.1
        (ParseSessionFileFrom envW "p" ("w\ncd".toList) 0 0).2.2.2 =
      ([], {}, (ParseSessionFileFrom envW "p" ("w\ncd".toList) 0 0).2.2.1,
       (ParseSessionFileFrom envW "p" ("w\ncd".toList) 0 0).2.2.2) :=
  c2_idempotent envW "p" ("w\ncd".toList) 0 0 (by decide)

/-- Counterexample refuting C2 as stated: for the file `a` + CR + newline,
the first call returns offset 2 (the stripped CR is not counted), and the
repeated call from offset 2 re-scans the newline byte and returns offset 3
— the returned offset does not equal the input offset. -/
theorem c2_idempotent_counterexample :
    (ParseSessionFileFrom envW "p" ("a\r\n".toList) 0 0).2.2.1 = 2 ∧
    (ParseSessionFileFrom envW "p" ("a\r\n".toList) 2 1).2.2.1 = 3 := by
  decide

/-! Two-pass resumption (claim C1): dedup keys reachable from a portion of
the file, and a simulation between the one-pass and two-pass runs. -/

/-- The concatenated dedup keys a record's `tool_use` items can consult. -/
def recordKeys (r : JSONLRecord) : List String :=
  match r.message with
  | some m => (m.content.filter (fun c => c.type = "tool_use")).map
      (fun c => r.uuid ++ c.name)
  | none => []

/-- The dedup keys one scanned token can consult. -/
def tokenKeys (env : Env) (t : List Char) : List String :=
  match env.dec t with
  | some r => recordKeys r
  | none => []

/-- All dedup keys a file portion can consult. -/
def fileKeys (env : Env) (f : List Char) : List String :=
  ((scanTokens f).map (tokenKeys env)).join

theorem mem_recordKeys (r : JSONLRecord) (m : Message) (c : ContentItem)
    (hm : r.message = some m) (hc : c ∈ m.content)
    (ht : c.type = "tool_use") : (r.uuid ++ c.name) ∈ recordKeys r := by
  unfold recordKeys
  rw [hm]
  exact List.mem_map.mpr ⟨c, List.mem_filter.mpr ⟨hc, by simp [ht]⟩, rfl⟩

theorem mem_fileKeys (env : Env) (f : List Char) (t : List Char)
    (k : String) (htf : t ∈ scanTokens f) (hk : k ∈ tokenKeys env t) :
    k ∈ fileKeys env f := by
  unfold fileKeys
  exact List.mem_join.mpr ⟨tokenKeys env t, List.mem_map.mpr ⟨t, htf, rfl⟩, hk⟩

theorem splitNlAux_cons_nl (acc zs : List Char) :
    splitNlAux acc ('\n' :: zs) =
      acc.reverse :: (if zs = [] then [] else splitNlAux [] zs) := by
  simp [splitNlAux]

theorem splitNlAux_cons_other (acc : List Char) (c : Char) (zs : List Char)
    (hc : c ≠ '\n') :
    splitNlAux acc (c :: zs) = splitNlAux (c :: acc) zs := by
  simp [splitNlAux, hc]

/-- Splitting distributes over a newline boundary. -/
theorem splitNlAux_append (ys : List Char) :
    ∀ (xs acc : List Char),
    splitNlAux acc (xs ++ '\n' :: ys) =
      splitNlAux acc (xs ++ ['\n']) ++
        (if ys = [] then [] else splitNlAux [] ys) := by
  intro xs
  induction xs with
  | nil =>
    intro acc
    by_cases hys : ys = []
    · subst hys; simp [splitNlAux]
    · simp [splitNlAux, hys]
  | cons c xs ih =>
    intro acc
    by_cases hc : c = '\n'
    · subst hc
      have h1 : xs ++ '\n' :: ys ≠ [] := by simp
      have h2 : xs ++ ['\n'] ≠ [] := by simp
      rw [List.cons_append, splitNlAux_cons_nl, if_neg h1,
          List.cons_append, splitNlAux_cons_nl, if_neg h2, ih []]
      simp
    · rw [List.cons_append, splitNlAux_cons_other _ _ _ hc,
          List.cons_append, splitNlAux_cons_other _ _ _ hc]
      exact ih (c :: acc)

theorem splitNl_append_nl (a b : List Char) (ha : a ≠ [])
    (hnl : a.getLast? = some '\n') :
    splitNl (a ++ b) = splitNl a ++ splitNl b := by
  have hdecomp : a.dropLast ++ ['\n'] = a := by
    have h1 := List.dropLast_append_getLast ha
    rw [List.getLast?_eq_getLast a ha] at hnl
    have h2 : a.getLast ha = '\n' := by
      injection hnl
    rw [h2] at h1
    exact h1
  by_cases hb : b = []
  · subst hb
    rw [List.append_nil, show splitNl ([] : List Char) = [] from rfl,
        List.append_nil]
  · rw [← hdecomp]
    have h3 : (a.dropLast ++ ['\n']) ++ b = a.dropLast ++ '\n' :: b := by
      simp
    rw [h3]
    unfold splitNl
    rw [if_neg (by simp), if_neg (by simp)]
    rw [splitNlAux_append b a.dropLast [], if_neg hb]

theorem scanTokens_append_nl (a b : List Char) (ha : a ≠ [])
    (hnl : a.getLast? = some '\n') :
    scanTokens (a ++ b) = scanTokens a ++ scanTokens b := by
  unfold scanTokens
  rw [splitNl_append_nl a b ha hnl, List.map_append]

/-- Simulation between the one-pass continuation state and the fresh state
of a resumed read: same line number and file path, the one-pass command
list extends the fresh one by the first portion's entries `c0`, and the
one-pass seen set is the fresh one plus the first portion's keys `K`. -/
def SimRel (c0 : List CommandEntry) (K : List String)
    (s s' : ParseState) : Prop :=
  s.commands = c0 ++ s'.commands ∧
  (∀ k, k ∈ s.seen ↔ (k ∈ K ∨ k ∈ s'.seen)) ∧
  s.lineNumber = s'.lineNumber ∧
  s.filePath = s'.filePath

theorem simRel_processToolUse (env : Env) (r : JSONLRecord)
    (c : ContentItem) (c0 : List CommandEntry) (K : List String)
    (s s' : ParseState) (hrel : SimRel c0 K s s')
    (hkey : c.type = "tool_use" → (r.uuid ++ c.name) ∉ K) :
    SimRel c0 K (processToolUse env r c s) (processToolUse env r c s') := by
  obtain ⟨hcmd, hseen, hln, hfp⟩ := hrel
  by_cases ht : c.type = "tool_use"
  · have hK := hkey ht
    cases hinc : env.inc (contentPattern c) with
    | false =>
      rw [processToolUse_skip_inc env r c s ht hinc,
          processToolUse_skip_inc env r c s' ht hinc]
      exact ⟨hcmd, hseen, hln, hfp⟩
    | true =>
      by_cases hmem' : (r.uuid ++ c.name) ∈ s'.seen
      · have hmem : (r.uuid ++ c.name) ∈ s.seen :=
          (hseen _).mpr (Or.inr hmem')
        rw [processToolUse_skip_seen env r c s ht hinc hmem,
            processToolUse_skip_seen env r c s' ht hinc hmem']
        exact ⟨hcmd, hseen, hln, hfp⟩
      · have hmem : (r.uuid ++ c.name) ∉ s.seen := by
          intro h
          rcases (hseen _).mp h with h | h
          · exact hK h
          · exact hmem' h
        have hseen2 : ∀ k, k ∈ (r.uuid ++ c.name) :: s.seen ↔
            (k ∈ K ∨ k ∈ (r.uuid ++ c.name) :: s'.seen) := by
          intro k
          simp only [List.mem_cons, hseen k]
          tauto
        by_cases hraw : contentRaw c = ""
        · rw [processToolUse_push env r c s ht hinc hmem hraw,
              processToolUse_push env r c s' ht hinc hmem' hraw]
          exact ⟨hcmd, hseen2, hln, hfp⟩
        · rw [processToolUse_append env r c s ht hinc hmem hraw,
              processToolUse_append env r c s' ht hinc hmem' hraw]
          refine ⟨?_, hseen2, hln, hfp⟩
          show s.commands ++ _ = c0 ++ (s'.commands ++ _)
          rw [hcmd, hln, hfp, List.append_assoc]
  · rw [processToolUse_skip_type env r c s ht,
        processToolUse_skip_type env r c s' ht]
    exact ⟨hcmd, hseen, hln, hfp⟩

theorem simRel_captureMetadata (r : JSONLRecord) (c0 : List CommandEntry)
    (K : List String) (s s' : ParseState) (hrel : SimRel c0 K s s') :
    SimRel c0 K (captureMetadata r s) (captureMetadata r s') := by
  obtain ⟨h1, h2, h3, h4⟩ := hrel
  obtain ⟨hc, hs, hn, hp⟩ := captureMetadata_parts r s
  obtain ⟨hc', hs', hn', hp'⟩ := captureMetadata_parts r s'
  refine ⟨?_, ?_, ?_, ?_⟩
  · rw [hc, hc']; exact h1
  · intro k; rw [hs, hs']; exact h2 k
  · rw [hn, hn']; exact h3
  · rw [hp, hp']; exact h4

theorem simRel_processContents (env : Env) (r : JSONLRecord)
    (c0 : List CommandEntry) (K : List String) :
    ∀ (items : List ContentItem) (s s' : ParseState),
    SimRel c0 K s s' →
    (∀ c ∈ items, c.type = "tool_use" → (r.uuid ++ c.name) ∉ K) →
    SimRel c0 K (processContents env r items s)
      (processContents env r items s') := by
  intro items
  induction items with
  | nil => intro s s' hrel _; exact hrel
  | cons c rest ih =>
    intro s s' hrel hkeys
    exact ih _ _
      (simRel_processToolUse env r c c0 K s s' hrel
        (hkeys c (List.mem_cons_self _ _)))
      (fun c' hc' => hkeys c' (List.mem_cons_of_mem _ hc'))

theorem simRel_bump (c0 : List CommandEntry) (K : List String)
    (s s' : ParseState) (hrel : SimRel c0 K s s') :
    SimRel c0 K { s with lineNumber := s.lineNumber + 1 }
      { s' with lineNumber := s'.lineNumber + 1 } := by
  obtain ⟨h1, h2, h3, h4⟩ := hrel
  exact ⟨h1, h2, by simp [h3], h4⟩

theorem simRel_processLineState (env : Env) (t : List Char)
    (c0 : List CommandEntry) (K : List String) (s s' : ParseState)
    (hrel : SimRel c0 K s s')
    (hkeys : ∀ k ∈ tokenKeys env t, k ∉ K) :
    SimRel c0 K (processLineState env t s) (processLineState env t s') := by
  unfold processLineState
  cases hdec : env.dec t with
  | none => exact simRel_bump c0 K s s' hrel
  | some record =>
    dsimp only
    have hrel1 := simRel_captureMetadata record c0 K _ _
      (simRel_bump c0 K s s' hrel)
    split_ifs with ht
    · exact hrel1
    · cases hm : record.message with
      | none => exact hrel1
      | some msg =>
        refine simRel_processContents env record c0 K msg.content _ _ hrel1 ?_
        intro c hc htu
        apply hkeys
        unfold tokenKeys
        rw [hdec]
        exact mem_recordKeys record msg c hm hc htu

theorem simRel_foldTokens (env : Env) (c0 : List CommandEntry)
    (K : List String) :
    ∀ (ts : List (List Char)) (s s' : ParseState),
    SimRel c0 K s s' →
    (∀ t ∈ ts, ∀ k ∈ tokenKeys env t, k ∉ K) →
    SimRel c0 K (foldTokens env ts s) (foldTokens env ts s') := by
  intro ts
  induction ts with
  | nil => intro s s' hrel _; exact hrel
  | cons t rest ih =>
    intro s s' hrel hkeys
    exact ih _ _
      (simRel_processLineState env t c0 K s s' hrel
        (hkeys t (List.mem_cons_self _ _)))
      (fun t' ht' => hkeys t' (List.mem_cons_of_mem _ ht'))

/-! The seen set only holds keys of scanned tokens. -/

theorem seen_processContents_sub (env : Env) (r : JSONLRecord) :
    ∀ (items : List ContentItem) (ps : ParseState) (k : String),
    k ∈ (processContents env r items ps).seen →
    k ∈ ps.seen ∨
      ∃ c ∈ items, c.type = "tool_use" ∧ k = r.uuid ++ c.name := by
  intro items
  induction items with
  | nil => intro ps k hk; exact Or.inl hk
  | cons c rest ih =>
    intro ps k hk
    rcases ih _ k hk with hk' | ⟨c', hc', ht', hk'⟩
    · rcases processToolUse_seen env r c ps with hs | ⟨ht, _, hs⟩
      · rw [hs] at hk'; exact Or.inl hk'
      · rw [hs] at hk'
        rcases List.mem_cons.mp hk' with rfl | hk''
        · exact Or.inr ⟨c, List.mem_cons_self _ _, ht, rfl⟩
        · exact Or.inl hk''
    · exact Or.inr ⟨c', List.mem_cons_of_mem _ hc', ht', hk'⟩

theorem seen_processLineState_sub (env : Env) (t : List Char)
    (ps : ParseState) (k : String)
    (hk : k ∈ (processLineState env t ps).seen) :
    k ∈ ps.seen ∨ k ∈ tokenKeys env t := by
  unfold processLineState at hk
  cases hdec : env.dec t with
  | none =>
    rw [hdec] at hk
    exact Or.inl hk
  | some record =>
    rw [hdec] at hk
    dsimp only at hk
    split_ifs at hk with ht
    · rw [(captureMetadata_parts record _).2.1] at hk
      exact Or.inl hk
    · cases hm : record.message with
      | none =>
        rw [hm] at hk
        rw [(captureMetadata_parts record _).2.1] at hk
        exact Or.inl hk
      | some msg =>
        rw [hm] at hk
        rcases seen_processContents_sub env record msg.content _ k hk with
          hk' | ⟨c, hc, htu, hk'⟩
        · rw [(captureMetadata_parts record _).2.1] at hk'
          exact Or.inl hk'
        · right
          unfold tokenKeys
          rw [hdec]
          exact hk' ▸ mem_recordKeys record msg c hm hc htu

theorem seen_foldTokens_sub (env : Env) :
    ∀ (ts : List (List Char)) (s : ParseState) (k : String),
    k ∈ (foldTokens env ts s).seen →
    k ∈ s.seen ∨ ∃ t ∈ ts, k ∈ tokenKeys env t := by
  intro ts
  induction ts with
  | nil => intro s k hk; exact Or.inl hk
  | cons t rest ih =>
    intro s k hk
    rcases ih _ k hk with hk' | ⟨t', ht', hk'⟩
    · rcases seen_processLineState_sub env t s k hk' with hk'' | hk''
      · exact Or.inl hk''
      · exact Or.inr ⟨t, List.mem_cons_self _ _, hk''⟩
    · exact Or.inr ⟨t', List.mem_cons_of_mem _ ht', hk'⟩

/-! Bookkeeping facts about the fold. -/

theorem filePath_processLineState (env : Env) (t : List Char)
    (ps : ParseState) :
    (processLineState env t ps).filePath = ps.filePath := by
  unfold processLineState
  cases env.dec t with
  | none => rfl
  | some record =>
    dsimp only
    split_ifs with ht
    · exact (captureMetadata_parts record _).2.2.2
    · cases record.message with
      | none => exact (captureMetadata_parts record _).2.2.2
      | some msg =>
        have h1 : ∀ (items : List ContentItem) (q : ParseState),
            (processContents env record items q).filePath = q.filePath := by
          intro items
          induction items with
          | nil => intro q; rfl
          | cons c rest ih =>
            intro q
            rw [processContents_cons, ih, processToolUse_filePath]
        rw [h1]
        exact (captureMetadata_parts record _).2.2.2

theorem filePath_foldTokens (env : Env) :
    ∀ (ts : List (List Char)) (s : ParseState),
    (foldTokens env ts s).filePath = s.filePath := by
  intro ts
  induction ts with
  | nil => intro s; rfl
  | cons t rest ih =>
    intro s
    rw [show foldTokens env (t :: rest) s =
        foldTokens env rest (processLineState env t s) from rfl, ih,
      filePath_processLineState]

/-- The returned line number of `ParseSessionFileFrom` is the fold state's
line number. -/
theorem parseFrom_lineNumber (env : Env) (path : String) (f : List Char)
    (off ln : Nat) :
    (ParseSessionFileFrom env path f off ln).2.2.2 =
      (foldTokens env (scanTokens (f.drop off))
        (newParseState path ln)).lineNumber := by
  unfold ParseSessionFileFrom
  dsimp only
  rw [foldTokensOff_fst]

theorem foldTokens_append (env : Env) (ts1 ts2 : List (List Char))
    (s : ParseState) :
    foldTokens env (ts1 ++ ts2) s = foldTokens env ts2 (foldTokens env ts1 s) := by
  simp [foldTokens, List.foldl_append]

/-- Record with uuid `v1` and one `Bash` tool_use. -/
def recV1 : JSONLRecord :=
  { type := "assistant", timestamp := "", uuid := "v1", sessionId := "s",
    gitBranch := "", cwd := "", message := some { content := [tuBash] } }

/-- A `tool_use` content item invoking `Edit` on a file path. -/
def tuEdit : ContentItem :=
  { type := "tool_use", name := "Edit",
    input := some { giZero with file_path := "/a.go" } }

/-- Record with uuid `v2` and one `Edit` tool_use. -/
def recV2 : JSONLRecord :=
  { type := "assistant", timestamp := "", uuid := "v2", sessionId := "s",
    gitBranch := "", cwd := "", message := some { content := [tuEdit] } }

/-- Decoder mapping line `1` to `recV1` and line `2` to `recV2`. -/
def envTwo : Env :=
  { dec := fun l => if l = ['1'] then some recV1
      else if l = ['2'] then some recV2 else none,
    pts := fun _ => none, now := 0, inc := fun _ => true }

/-! Claim C1. -/

/-- Claim C1 (amended): a full one-pass parse (`ParseSessionFile` agrees
with `ParseSessionFileFrom` from offset 0) equals the two-pass parse that
stops at byte `N` on a line boundary and resumes from the returned offset
and line number — provided no line of the first portion ends in a carriage
return and no dedup key occurring in the resumed portion also occurs in
the first portion. (As stated, without the key proviso, the claim is
refuted by `c1_round_trip_counterexample`: the per-call dedup set forgets
first-portion keys on resumption.) -/
theorem c1_round_trip :
    (∀ (env : Env) (path : String) (f : List Char),
       (ParseSessionFile env path f).1 =
         (ParseSessionFileFrom env path f 0 0).1) ∧
    (∀ (env : Env) (path : String) (f : List Char) (N : Nat),
       (f.take N = f ∨ (f.take N).getLast? = some '\n') →
       noCRPieces (f.take N) →
       (∀ k ∈ fileKeys env (f.drop N), k ∉ fileKeys env (f.take N)) →
       (ParseSessionFileFrom env path (f.take N) 0 0).1 ++
         (ParseSessionFileFrom env path f
           (ParseSessionFileFrom env path (f.take N) 0 0).2.2.1
           (ParseSessionFileFrom env path (f.take N) 0 0).2.2.2).1 =
       (ParseSessionFileFrom env path f 0 0).1) := by
  constructor
  · intro env path f
    rw [parseFrom_commands, List.drop_zero]
    rfl
  · intro env path f N hb hcr hdisj
    rcases hb with hb | hb
    · -- the first portion is the whole file: the resumed read scans nothing
      rw [hb]
      have hge : f.length ≤ (ParseSessionFileFrom env path f 0 0).2.2.1 := by
        rw [parseFrom_offset, List.drop_zero]
        rw [hb] at hcr
        by_cases hf : f = []
        · subst hf; simp
        · rw [totalLen_scanTokens f hcr, totalLen_splitNl f hf]
          split_ifs <;> omega
      rw [parseFrom_of_ge env path f _ _ hge]
      simp
    · have hane : f.take N ≠ [] := by
        intro h
        rw [h] at hb
        simp at hb
      have hfa : f.take N ++ f.drop N = f := List.take_append_drop N f
      have hoff : (ParseSessionFileFrom env path (f.take N) 0 0).2.2.1 =
          (f.take N).length := by
        rw [parseFrom_offset, List.drop_zero,
            totalLen_scanTokens _ hcr, totalLen_splitNl _ hane, if_pos hb]
        omega
      have hdrop : f.drop (ParseSessionFileFrom env path (f.take N) 0 0).2.2.1
          = f.drop N := by
        rw [hoff, List.length_take]
        rcases le_total N f.length with h | h
        · rw [min_eq_left h]
        · rw [min_eq_right h, List.drop_eq_nil_of_le (le_refl f.length),
              List.drop_eq_nil_of_le h]
      have hr1 : (ParseSessionFileFrom env path (f.take N) 0 0).1 =
          (foldTokens env (scanTokens (f.take N))
            (newParseState path 0)).commands := by
        rw [parseFrom_commands, List.drop_zero]
      have hln : (ParseSessionFileFrom env path (f.take N) 0 0).2.2.2 =
          (foldTokens env (scanTokens (f.take N))
            (newParseState path 0)).lineNumber := by
        rw [parseFrom_lineNumber, List.drop_zero]
      have hr2 : (ParseSessionFileFrom env path f
            (ParseSessionFileFrom env path (f.take N) 0 0).2.2.1
            (ParseSessionFileFrom env path (f.take N) 0 0).2.2.2).1 =
          (foldTokens env (scanTokens (f.drop N))
            (newParseState path
              (ParseSessionFileFrom env path (f.take N) 0 0).2.2.2)).commands := by
        rw [parseFrom_commands, hdrop]
      have hfull : (ParseSessionFileFrom env path f 0 0).1 =
          (foldTokens env (scanTokens (f.drop N))
            (foldTokens env (scanTokens (f.take N))
              (newParseState path 0))).commands := by
        rw [parseFrom_commands, List.drop_zero]
        conv_lhs => rw [← hfa]
        rw [scanTokens_append_nl _ _ hane hb, foldTokens_append]
      have hsim0 : SimRel
          (foldTokens env (scanTokens (f.take N))
            (newParseState path 0)).commands
          (foldTokens env (scanTokens (f.take N)) (newParseState path 0)).seen
          (foldTokens env (scanTokens (f.take N)) (newParseState path 0))
          (newParseState path
            (ParseSessionFileFrom env path (f.take N) 0 0).2.2.2) := by
        refine ⟨?_, ?_, ?_, ?_⟩
        · simp [newParseState]
        · intro k; simp [newParseState]
        · rw [hln]; rfl
        · rw [filePath_foldTokens]; rfl
      have hkeys : ∀ t ∈ scanTokens (f.drop N), ∀ k ∈ tokenKeys env t,
          k ∉ (foldTokens env (scanTokens (f.take N))
            (newParseState path 0)).seen := by
        intro t ht k hk hkseen
        rcases seen_foldTokens_sub env (scanTokens (f.take N))
            (newParseState path 0) k hkseen with h | ⟨t', ht', hk'⟩
        · simp [newParseState] at h
        · exact hdisj k (mem_fileKeys env (f.drop N) t k ht hk)
            (mem_fileKeys env (f.take N) t' k ht' hk')
      have hsim := simRel_foldTokens env _ _ (scanTokens (f.drop N)) _ _
        hsim0 hkeys
      rw [hr1, hr2, hfull]
      exact hsim.1.symm

/-- Witness for C1: a two-line file with distinct uuids, split at byte 2
(the end of the first line), parses identically in one and two passes. -/
theorem c1_round_trip_witness :
    (ParseSessionFileFrom envTwo "p" (("1\n2\n".toList).take 2) 0 0).1 ++
      (ParseSessionFileFrom envTwo "p" ("1\n2\n".toList)
        (ParseSessionFileFrom envTwo "p" (("1\n2\n".toList).take 2) 0 0).2.2.1
        (ParseSessionFileFrom envTwo "p" (("1\n2\n".toList).take 2) 0 0).2.2.2).1 =
    (ParseSessionFileFrom envTwo "p" ("1\n2\n".toList) 0 0).1 :=
  c1_round_trip.2 envTwo "p" ("1\n2\n".toList) 2 (Or.inr (by decide))
    (by decide) (by decide)

/-- Counterexample refuting C1 as stated: the file repeats the same
assistant line (uuid `u1`, tool `Bash`) on both sides of the line-boundary
split at byte 2; the one-pass parse deduplicates to one entry, the
two-pass parse emits two. -/
theorem c1_round_trip_counterexample :
    ((("w\nw\n".toList).take 2).getLast? = some '\n') ∧
    ((ParseSessionFileFrom envW "p" (("w\nw\n".toList).take 2) 0 0).1 ++
      (ParseSessionFileFrom envW "p" ("w\nw\n".toList)
        (ParseSessionFileFrom envW "p" (("w\nw\n".toList).take 2) 0 0).2.2.1
        (ParseSessionFileFrom envW "p" (("w\nw\n".toList).take 2) 0 0).2.2.2).1).length
      = 2 ∧
    ((ParseSessionFileFrom envW "p" ("w\nw\n".toList) 0 0).1).length = 1 := by
  decide

/-! The filesystem watcher and session registry (`watcher.go`).

Paths are modelled as slash-separated clean strings (no trailing slash,
no `..`), which is the shape of every path the watcher builds; `dirOf` and
`baseOf` are `filepath.Dir` / `filepath.Base` on that fragment. The
filesystem is the value `FS`: `files` is open-and-read (`none` = open
error), `stat` is `os.Stat` returning modification time and size, `glob`
is `filepath.Glob(dir ++ slash ++ star.jsonl)`. The Go
`map[string]*Session` with shared pointers is an association list keyed by
file path; the cached `[]*Session` is the list of keys, so a cached entry
and a map entry alias the same session. Go map iteration order is
unspecified; the model iterates in association-list order (none of the
verified properties depends on the order). `sort.Slice` is an unstable
sort; the model's insertion sorts produce one of its admissible outputs,
and the verified properties depend only on sortedness and membership. -/

/-- Split a string at slashes (keeping empty components). -/
def splitSlashAux (acc : List Char) : List Char → List (List Char)
  | [] => [acc.reverse]
  | c :: cs =>
    if c = '/' then acc.reverse :: splitSlashAux [] cs
    else splitSlashAux (c :: acc) cs

/-- The slash-separated components of a path. -/
def splitSlash (s : String) : List String :=
  (splitSlashAux [] s.toList).map List.asString

/-- `filepath.Dir` for clean slash-separated paths. -/
def dirOf (p : String) : String :=
  match (splitSlash p).dropLast with
  | [] => "."
  | parts => String.intercalate "/" parts

/-- `filepath.Base` for clean slash-separated paths. -/
def baseOf (p : String) : String :=
  ((splitSlash p).getLast?).getD p

/-- `filepath.Join` of two clean non-empty fragments. -/
def joinPath (a b : String) : String := a ++ "/" ++ b

/-- `strings.TrimSuffix`. -/
def trimSuffix (s suf : String) : String :=
  if suf.toList.isSuffixOf s.toList then
    (s.toList.take (s.toList.length - suf.toList.length)).asString
  else s

/-- `5 * time.Minute` in nanoseconds (timestamps are `time.Time` instants
on the nanosecond scale). -/
def fiveMinutes : Int := 5 * 60 * 1000000000

/-- `Session` (`types.go` / `watcher.go`). -/
structure Session where
  id : String
  projectPath : String
  filePath : String
  gitBranch : String
  lastActivity : Int
  commands : List CommandEntry
  isActive : Bool
  origin : String
deriving DecidableEq

/-- `WatchEvent` (`watcher.go`): the session value is the state of the
pointed-to session at emission time. -/
structure WatchEvent where
  type : String
  session : Session
  commands : List CommandEntry
deriving DecidableEq

/-- The filesystem the watcher observes. -/
structure FS where
  files : String → Option (List Char)
  stat : String → Option (Int × Nat)
  glob : String → List String

/-- The watcher's mutable state (`Watcher` minus the fsnotify handle and
channels; emitted events and errors are returned by each operation). -/
structure WState where
  projectsDirs : List String
  sessions : List (String × Session)
  offsets : String → Nat
  lineNumbers : String → Nat
  subagentMap : String → Option String
  originMap : String → String
  sortedCache : List String
  sortedCacheValid : Bool

/-- Look up a session by path (`w.sessions[path]`). -/
def sFind (l : List (String × Session)) (p : String) : Option Session :=
  (l.find? (fun kv => kv.1 = p)).map Prod.snd

/-- Write through a session pointer: update the map entry at `p`. -/
def sUpd (l : List (String × Session)) (p : String) (s : Session) :
    List (String × Session) :=
  l.map (fun kv => if kv.1 = p then (p, s) else kv)

/-- Update a zero-defaulting `map[string]int64` / `map[string]int`. -/
def upd (m : String → Nat) (k : String) (v : Nat) : String → Nat :=
  fun x => if x = k then v else m x

/-- Update the `map[string]string` of subagent parents. -/
def updSub (m : String → Option String) (k v : String) :
    String → Option String :=
  fun x => if x = k then some v else m x

/-- Insertion sort by timestamp ascending, implementing the
`sort.Slice(commands, Before)` call of `Watcher.parseSessionFile`. -/
def insertCmd (e : CommandEntry) : List CommandEntry → List CommandEntry
  | [] => [e]
  | x :: xs =>
    if e.timestamp < x.timestamp then e :: x :: xs else x :: insertCmd e xs

def sortCmds : List CommandEntry → List CommandEntry
  | [] => []
  | e :: es => insertCmd e (sortCmds es)

/-- Insertion sort by last activity descending, implementing the
`sort.Slice(sortedCache, After)` call of `rebuildSortedCache`. -/
def insertSess (x : String × Session) :
    List (String × Session) → List (String × Session)
  | [] => [x]
  | y :: ys =>
    if y.2.lastActivity < x.2.lastActivity then x :: y :: ys
    else y :: insertSess x ys

def sortSessionsDesc : List (String × Session) → List (String × Session)
  | [] => []
  | x :: xs => insertSess x (sortSessionsDesc xs)

/-- The origin-label loop of `Watcher.parseSessionFile`: first projects
directory that prefixes the path (missing `originMap` keys read as the Go
zero value, the empty string). -/
def originLookup (w : WState) (path : String) : String :=
  match w.projectsDirs.find? (fun d =>
      (d ++ "/").toList.isPrefixOf path.toList || path = d) with
  | some d => w.originMap d
  | none => ""

/-- The command-timestamp step of the last-activity computation in
`Watcher.parseSessionFile`: if the merged, sorted command list is
non-empty and its final entry's timestamp is after the file's modification
time, take that timestamp. -/
def cmdLastActivity (mtime : Int) (commands : List CommandEntry) : Int :=
  match commands.getLast? with
  | some lastCmd =>
    if mtime < lastCmd.timestamp then lastCmd.timestamp else mtime
  | none => mtime

/-- The subagent-directory step of the last-activity computation: a
subagents directory modified after the main file's modification time
overrides the accumulated value. -/
def subagentOverride (fs : FS) (subagentDir : String) (mtime la : Int) :
    Int :=
  match fs.stat subagentDir with
  | some (subM, _) => if mtime < subM then subM else la
  | none => la

/-- `Watcher.parseSessionFile`: build a `Session` from a main JSONL file,
merging subagent transcripts, sorting by timestamp, and deriving
last-activity and the active flag. Returns `none` on stat or open error. -/
def WParseSessionFile (env : Env) (fs : FS) (w : WState)
    (path encodedProject : String) : Option Session :=
  match fs.stat path with
  | none => none
  | some (mtime, _) =>
    let sessionID := trimSuffix (baseOf path) ".jsonl"
    match fs.files path with
    | none => none
    | some content =>
      let pr := ParseSessionFile env path content
      let meta := pr.2
      let projectPath := if meta.cwd ≠ "" then meta.cwd else encodedProject
      let subagentDir := joinPath (joinPath (dirOf path) sessionID) "subagents"
      let commands := pr.1 ++ ((fs.glob subagentDir).map (fun sp =>
          match fs.files sp with
          | some sc => (ParseSessionFile env sp sc).1
          | none => [])).join
      let commands := sortCmds commands
      let lastActivity :=
        subagentOverride fs subagentDir mtime (cmdLastActivity mtime commands)
      some { id := sessionID, projectPath := projectPath, filePath := path,
             gitBranch := meta.gitBranch, lastActivity := lastActivity,
             commands := commands,
             isActive := decide (env.now - lastActivity < fiveMinutes),
             origin := originLookup w path }

/-- `Watcher.handleFileUpdate`: incremental read on a write event.
Returns the new state, the events sent on `w.Events`, and the errors sent
on `w.Errors` (this handler never sends an error: a parse error returns
early and silently). -/
def handleFileUpdate (env : Env) (fs : FS) (w : WState) (path : String) :
    WState × List WatchEvent × List String :=
  let sessKey := match w.subagentMap path with
    | some mainPath => mainPath
    | none => path
  match sFind w.sessions sessKey with
  | none => (w, [], [])
  | some session =>
    match fs.files path with
    | none => (w, [], [])
    | some content =>
      let r := ParseSessionFileFrom env path content (w.offsets path)
        (w.lineNumbers path)
      let w1 := { w with offsets := upd w.offsets path r.2.2.1,
                         lineNumbers := upd w.lineNumbers path r.2.2.2 }
      let meta := r.2.1
      let session := { session with projectPath :=
        if meta.cwd ≠ "" ∧ session.projectPath ≠ meta.cwd then meta.cwd
        else session.projectPath }
      let session := { session with gitBranch :=
        if meta.gitBranch ≠ "" ∧ session.gitBranch = "" then meta.gitBranch
        else session.gitBranch }
      let w2 := { w1 with sessions := sUpd w1.sessions sessKey session }
      if r.1 = [] then (w2, [], [])
      else
        let session := { session with
          commands := session.commands ++ r.1,
          lastActivity := env.now, isActive := true }
        let w3 := { w2 with
          sessions := sUpd w2.sessions sessKey session,
          sortedCacheValid := false }
        let ev : WatchEvent :=
          { type := "new_commands", session := session, commands := r.1 }
        (w3, [ev], [])

/-- `Watcher.handleNewFile`: a create event for a JSONL path. A path in a
`subagents` directory is attached to its parent session (note: with no
already-tracked check); any other untracked path becomes a new session. -/
def handleNewFile (env : Env) (fs : FS) (w : WState) (path : String) :
    WState × List WatchEvent :=
  let dir := dirOf path
  if baseOf dir = "subagents" then
    let sessionDir := dirOf dir
    let sessionID := baseOf sessionDir
    let projectDir := dirOf sessionDir
    let mainSessionPath := joinPath projectDir (sessionID ++ ".jsonl")
    match sFind w.sessions mainSessionPath with
    | none => (w, [])
    | some session =>
      let w1 := { w with
        subagentMap := updSub w.subagentMap path mainSessionPath }
      let w2 := match fs.stat path with
        | some (_, size) => { w1 with offsets := upd w1.offsets path size }
        | none => w1
      let commands := match fs.files path with
        | some c => (ParseSessionFile env path c).1
        | none => []
      if commands = [] then (w2, [])
      else
        let session := { session with
          commands := session.commands ++ commands,
          lastActivity := env.now, isActive := true }
        let w3 := { w2 with
          sessions := sUpd w2.sessions mainSessionPath session,
          sortedCacheValid := false }
        let ev : WatchEvent :=
          { type := "new_commands", session := session, commands := commands }
        (w3, [ev])
  else
    match sFind w.sessions path with
    | some _ => (w, [])
    | none =>
      match WParseSessionFile env fs w path (baseOf (dirOf path)) with
      | none => (w, [])
      | some session =>
        let w1 := { w with
          sessions := w.sessions ++ [(path, session)],
          sortedCacheValid := false }
        let w2 := match fs.stat path with
          | some (_, size) => { w1 with offsets := upd w1.offsets path size }
          | none => w1
        (w2, [{ type := "discovered", session := session, commands := [] }])

/-- One subagent file of `Watcher.ScanForNewSubagents`: skip if tracked,
else register, parse whole file, record size, and append to the parent. -/
def scanSubFile (env : Env) (fs : FS) (mainPath subPath : String)
    (acc : WState × List WatchEvent) : WState × List WatchEvent :=
  let w := acc.1
  match w.subagentMap subPath with
  | some _ => acc
  | none =>
    let w1 := { w with subagentMap := updSub w.subagentMap subPath mainPath }
    let commands := match fs.files subPath with
      | some c => (ParseSessionFile env subPath c).1
      | none => []
    let w2 := match fs.stat subPath with
      | some (_, size) => { w1 with offsets := upd w1.offsets subPath size }
      | none => w1
    if commands = [] then (w2, acc.2)
    else
      match sFind w2.sessions mainPath with
      | none => (w2, acc.2)
      | some sess =>
        let sess := { sess with
          commands := sess.commands ++ commands,
          lastActivity := env.now, isActive := true }
        let w3 := { w2 with
          sessions := sUpd w2.sessions mainPath sess,
          sortedCacheValid := false }
        let ev : WatchEvent :=
          { type := "new_commands", session := sess, commands := commands }
        (w3, acc.2 ++ [ev])

/-- One tracked session of `Watcher.ScanForNewSubagents`. -/
def scanSubSession (env : Env) (fs : FS) (acc : WState × List WatchEvent)
    (mainPath : String) : WState × List WatchEvent :=
  let sessionID := trimSuffix (baseOf mainPath) ".jsonl"
  let subagentDir := joinPath (joinPath (dirOf mainPath) sessionID)
    "subagents"
  let subagentFiles := fs.glob subagentDir
  if subagentFiles = [] then acc
  else subagentFiles.foldl (fun a sp => scanSubFile env fs mainPath sp a) acc

/-- `Watcher.ScanForNewSubagents`: the periodic poll over all sessions. -/
def ScanForNewSubagents (env : Env) (fs : FS) (w : WState) :
    WState × List WatchEvent :=
  (w.sessions.map Prod.fst).foldl (scanSubSession env fs) (w, [])

/-- `Watcher.rebuildSortedCache`. -/
def rebuildSortedCache (w : WState) : WState :=
  { w with sortedCache := (sortSessionsDesc w.sessions).map Prod.fst,
           sortedCacheValid := true }

/-- `Watcher.GetSessions`: serve from the cache when valid, else rebuild;
the returned snapshot dereferences the cached pointers (keys). -/
def GetSessions (w : WState) : List Session × WState :=
  if w.sortedCacheValid then
    (w.sortedCache.filterMap (sFind w.sessions), w)
  else
    let w' := rebuildSortedCache w
    (w'.sortedCache.filterMap (sFind w'.sessions), w')

/-- `Watcher.RefreshActivityStatus`: re-stat every tracked file and
recompute the active flag; nothing else is touched. -/
def RefreshActivityStatus (env : Env) (fs : FS) (w : WState) : WState :=
  { w with sessions := w.sessions.map (fun kv =>
      match fs.stat kv.1 with
      | some (m, _) =>
        (kv.1, { kv.2 with isActive := decide (env.now - m < fiveMinutes) })
      | none => kv) }

/-! Watcher fixtures. -/

/-- A tracked session with no commands at `r/p/s.jsonl`. -/
def sessC : Session :=
  { id := "s", projectPath := "/w", filePath := "r/p/s.jsonl",
    gitBranch := "", lastActivity := 0, commands := [], isActive := false,
    origin := "" }

/-- A watcher state tracking `sessC` with an invalid cache. -/
def w0 : WState :=
  { projectsDirs := ["r"], sessions := [("r/p/s.jsonl", sessC)],
    offsets := fun _ => 0, lineNumbers := fun _ => 0,
    subagentMap := fun _ => none, originMap := fun _ => "",
    sortedCache := [], sortedCacheValid := false }

/-- A filesystem with nothing in it. -/
def fsEmpty : FS :=
  { files := fun _ => none, stat := fun _ => none, glob := fun _ => [] }

/-! Claim C7. -/

/-- Claim C7 (amended): when a write-event-triggered incremental read
fails to open the file, the watcher state is returned unchanged — stored
offsets, line numbers and the session untouched — and nothing is emitted:
no event and, contrary to the claim as stated, no error on the error
stream (refuted by `c7_update_error_counterexample`; the seek-failure
return path of `ParseSessionFileFrom` is the same early return). -/
theorem c7_update_error :
    ∀ (env : Env) (fs : FS) (w : WState) (path : String),
      fs.files path = none →
      handleFileUpdate env fs w path = (w, [], []) := by
  intro env fs w path h
  unfold handleFileUpdate
  dsimp only
  cases sFind w.sessions (match w.subagentMap path with
    | some mainPath => mainPath
    | none => path) with
  | none => rfl
  | some session =>
    dsimp only
    rw [h]

/-- Witness for C7: a missing file leaves the concrete state `w0` exactly
as it was, with no emissions. -/
theorem c7_update_error_witness :
    handleFileUpdate envW fsEmpty w0 "r/p/s.jsonl" = (w0, [], []) :=
  c7_update_error envW fsEmpty w0 "r/p/s.jsonl" rfl

/-- Counterexample refuting C7 as stated: the open failure is silent — the
error stream receives nothing (and the claim requires it to be surfaced
there). -/
theorem c7_update_error_counterexample :
    (handleFileUpdate envW fsEmpty w0 "r/p/s.jsonl").2.2 = [] := rfl

/-! Claim C4. -/

/-- The subagent file path of the C4 scenario. -/
def subPathC4 : String := "r/p/s/subagents/a.jsonl"

/-- A filesystem holding one subagent transcript whose single line decodes
(under `envW`) to an assistant record with one `Bash` tool_use. -/
def fsC4 : FS :=
  { files := fun p => if p = subPathC4 then some ['w', '\n'] else none,
    stat := fun p => if p = subPathC4 then some (0, 2) else none,
    glob := fun d => if d = "r/p/s/subagents" then [subPathC4] else [] }

/-- Claim C4 evaluation at the failing input: after a first create event
registers the subagent file and merges its one command, the periodic poll
correctly skips the already-tracked file (the pair count stays 1), but a
second create event for the same path re-parses and re-appends everything,
leaving two `CommandEntry` values with the same `(uuid, tool name)` pair
`(u1, Bash)` in the session — the uniqueness invariant the claim states is
violated by `Watcher.handleNewFile`'s missing already-tracked check. -/
theorem c4_code_bug_eval :
    countPair ((sFind (ScanForNewSubagents envW fsC4
        (handleNewFile envW fsC4 w0 subPathC4).1).1.sessions
        "r/p/s.jsonl").getD sessC).commands "u1" "Bash" = 1 ∧
    countPair ((sFind (handleNewFile envW fsC4
        (handleNewFile envW fsC4 w0 subPathC4).1 subPathC4).1.sessions
        "r/p/s.jsonl").getD sessC).commands "u1" "Bash" = 2 := by
  decide

/-! Claim C6: the timestamp-sort bridge — the last element of the sorted
command list carries the maximal timestamp. -/

/-- Fold-maximum of a base instant and the entries' timestamps. -/
def maxTsFrom (base : Int) (l : List CommandEntry) : Int :=
  l.foldl (fun a e => max a e.timestamp) base

theorem maxTsFrom_cons (b : Int) (x : CommandEntry) (xs : List CommandEntry) :
    maxTsFrom b (x :: xs) = maxTsFrom (max b x.timestamp) xs := rfl

theorem mem_insertCmd (e x : CommandEntry) (l : List CommandEntry) :
    x ∈ insertCmd e l ↔ x = e ∨ x ∈ l := by
  induction l with
  | nil => simp [insertCmd]
  | cons y ys ih =>
    simp only [insertCmd]
    split_ifs <;> simp [ih] <;> tauto

theorem mem_sortCmds (x : CommandEntry) (l : List CommandEntry) :
    x ∈ sortCmds l ↔ x ∈ l := by
  induction l with
  | nil => simp [sortCmds]
  | cons y ys ih =>
    simp only [sortCmds, mem_insertCmd, ih, List.mem_cons]

theorem head_insertCmd (e : CommandEntry) (l : List CommandEntry) :
    (insertCmd e l).head? = some e ∨ (insertCmd e l).head? = l.head? := by
  cases l with
  | nil => exact Or.inl rfl
  | cons x xs =>
    simp only [insertCmd]
    split_ifs
    · exact Or.inl rfl
    · exact Or.inr rfl

theorem chain'_insertCmd (e : CommandEntry) (l : List CommandEntry)
    (h : List.Chain' (fun a b => a.timestamp ≤ b.timestamp) l) :
    List.Chain' (fun a b => a.timestamp ≤ b.timestamp) (insertCmd e l) := by
  induction l with
  | nil => simp [insertCmd]
  | cons x xs ih =>
    simp only [insertCmd]
    split_ifs with hlt
    · exact List.chain'_cons.mpr ⟨le_of_lt hlt, h⟩
    · have hx := List.chain'_cons'.mp h
      apply List.chain'_cons'.mpr
      refine ⟨?_, ih hx.2⟩
      intro y hy
      rcases head_insertCmd e xs with hh | hh
      · rw [hh] at hy
        simp only [Option.mem_def, Option.some_inj] at hy
        subst hy
        exact not_lt.mp hlt
      · rw [hh] at hy
        exact hx.1 y hy

theorem chain'_sortCmds (l : List CommandEntry) :
    List.Chain' (fun a b => a.timestamp ≤ b.timestamp) (sortCmds l) := by
  induction l with
  | nil => simp [sortCmds]
  | cons x xs ih => exact chain'_insertCmd x (sortCmds xs) ih

theorem chain'_last_ge :
    ∀ l : List CommandEntry,
    List.Chain' (fun a b => a.timestamp ≤ b.timestamp) l →
    ∀ g, l.getLast? = some g → ∀ x ∈ l, x.timestamp ≤ g.timestamp := by
  intro l
  induction l with
  | nil => intro _ g hg; simp at hg
  | cons a rest ih =>
    intro h g hg x hx
    cases rest with
    | nil =>
      simp only [List.getLast?_singleton, Option.some_inj] at hg
      subst hg
      simp only [List.mem_singleton] at hx
      subst hx
      exact le_refl _
    | cons b rest' =>
      rw [List.getLast?_cons_cons] at hg
      have hch := List.chain'_cons.mp h
      have hbg : b.timestamp ≤ g.timestamp :=
        ih hch.2 g hg b (List.mem_cons_self _ _)
      rcases List.mem_cons.mp hx with rfl | hx'
      · exact le_trans hch.1 hbg
      · exact ih hch.2 g hg x hx'

theorem maxTsFrom_of_le (b : Int) (l : List CommandEntry)
    (h : ∀ x ∈ l, x.timestamp ≤ b) : maxTsFrom b l = b := by
  induction l with
  | nil => rfl
  | cons x xs ih =>
    rw [maxTsFrom_cons, max_eq_left (h x (List.mem_cons_self _ _))]
    exact ih (fun y hy => h y (List.mem_cons_of_mem _ hy))

theorem maxTsFrom_eq_of_max :
    ∀ (l : List CommandEntry) (b : Int) (g : CommandEntry), g ∈ l →
    (∀ x ∈ l, x.timestamp ≤ g.timestamp) → b ≤ g.timestamp →
    maxTsFrom b l = g.timestamp := by
  intro l
  induction l with
  | nil => intro b g hg; simp at hg
  | cons x xs ih =>
    intro b g hg hmax hb
    rw [maxTsFrom_cons]
    rcases List.mem_cons.mp hg with rfl | hg'
    · rw [max_eq_right hb]
      exact maxTsFrom_of_le _ _ (fun y hy => hmax y (List.mem_cons_of_mem _ hy))
    · exact ih _ g hg' (fun y hy => hmax y (List.mem_cons_of_mem _ hy))
        (max_le hb (hmax x (List.mem_cons_self _ _)))

theorem mem_of_getLast?_cmds :
    ∀ (l : List CommandEntry) (g : CommandEntry),
    l.getLast? = some g → g ∈ l := by
  intro l
  induction l with
  | nil => intro g hg; simp at hg
  | cons a rest ih =>
    intro g hg
    cases rest with
    | nil =>
      simp only [List.getLast?_singleton, Option.some_inj] at hg
      subst hg
      exact List.mem_cons_self _ _
    | cons b rest' =>
      rw [List.getLast?_cons_cons] at hg
      exact List.mem_cons_of_mem _ (ih g hg)

/-- The code's take-the-last-sorted-entry step computes the fold-maximum
of the file's modification time and all command timestamps. -/
theorem cmdLastActivity_eq_maxTsFrom (m : Int) (l : List CommandEntry) :
    cmdLastActivity m (sortCmds l) = maxTsFrom m (sortCmds l) := by
  unfold cmdLastActivity
  cases hlast : (sortCmds l).getLast? with
  | none =>
    rw [List.getLast?_eq_none_iff] at hlast
    rw [hlast]
    rfl
  | some g =>
    have hg : g ∈ sortCmds l := mem_of_getLast?_cmds _ g hlast
    have hmax := chain'_last_ge (sortCmds l) (chain'_sortCmds l) g hlast
    dsimp only
    by_cases hm : m < g.timestamp
    · rw [if_pos hm]
      exact (maxTsFrom_eq_of_max _ m g hg hmax (le_of_lt hm)).symm
    · rw [if_neg hm]
      exact (maxTsFrom_of_le m _
        (fun x hx => le_trans (hmax x hx) (not_lt.mp hm))).symm

/-- Claim C6 (amended): for every session the full-scan assembler builds,
last-activity equals the subagents-directory modification time when that
is newer than the main file's modification time, and otherwise the
maximum of the main file's modification time and all merged command
timestamps; the active flag is true iff now minus last-activity is under
five minutes. (As stated — last-activity as the three-way maximum — the
claim is refuted by `c6_last_activity_counterexample`: a subagent-dir
mtime newer than the file mtime overrides even a larger command
timestamp.) -/
theorem c6_last_activity :
    ∀ (env : Env) (fs : FS) (w : WState) (path enc : String) (m : Int)
      (sz : Nat) (content : List Char),
    fs.stat path = some (m, sz) → fs.files path = some content →
    ∃ s, WParseSessionFile env fs w path enc = some s ∧
      s.lastActivity = subagentOverride fs
        (joinPath (joinPath (dirOf path) (trimSuffix (baseOf path) ".jsonl"))
          "subagents") m (maxTsFrom m s.commands) ∧
      (s.isActive = true ↔ env.now - s.lastActivity < fiveMinutes) := by
  intro env fs w path enc m sz content hstat hfiles
  unfold WParseSessionFile
  rw [hstat, hfiles]
  dsimp only
  refine ⟨_, rfl, ?_, ?_⟩
  · show subagentOverride _ _ _ (cmdLastActivity m (sortCmds _)) =
      subagentOverride _ _ _ (maxTsFrom m (sortCmds _))
    rw [cmdLastActivity_eq_maxTsFrom]
  · exact decide_eq_true_iff

/-- Environment for the C6 scenario: line `w` decodes to `recW`, whose
timestamp string `T` parses to instant 10. -/
def envC6 : Env :=
  { dec := fun l => if l = ['w'] then some recW else none,
    pts := fun t => if t = "T" then some 10 else none, now := 100,
    inc := fun _ => true }

/-- Filesystem for the C6 scenario: main file modified at instant 0 with
one command at instant 10, subagents directory modified at instant 5. -/
def fsC6 : FS :=
  { files := fun p => if p = "r/p/s.jsonl" then some ['w', '\n'] else none,
    stat := fun p => if p = "r/p/s.jsonl" then some ((0 : Int), (2 : Nat))
      else if p = "r/p/s/subagents" then some ((5 : Int), (0 : Nat))
      else none,
    glob := fun _ => [] }

/-- A watcher state with nothing tracked. -/
def wEmpty : WState :=
  { projectsDirs := [], sessions := [], offsets := fun _ => 0,
    lineNumbers := fun _ => 0, subagentMap := fun _ => none,
    originMap := fun _ => "", sortedCache := [], sortedCacheValid := false }

/-- Witness for C6 at the concrete scenario. -/
theorem c6_last_activity_witness :
    ∃ s, WParseSessionFile envC6 fsC6 wEmpty "r/p/s.jsonl" "p" = some s ∧
      s.lastActivity = subagentOverride fsC6
        (joinPath (joinPath (dirOf "r/p/s.jsonl")
          (trimSuffix (baseOf "r/p/s.jsonl") ".jsonl")) "subagents") 0
        (maxTsFrom 0 s.commands) ∧
      (s.isActive = true ↔ envC6.now - s.lastActivity < fiveMinutes) :=
  c6_last_activity envC6 fsC6 wEmpty "r/p/s.jsonl" "p" 0 2 ['w', '\n']
    rfl rfl

/-- Counterexample refuting C6 as stated: file mtime 0, latest command
timestamp 10, subagent-dir mtime 5 — the code sets last-activity to 5
(the subagent override compares only against the file mtime), whereas the
claimed three-way maximum is 10. -/
theorem c6_last_activity_counterexample :
    (WParseSessionFile envC6 fsC6 wEmpty "r/p/s.jsonl" "p").map
        (fun s => s.lastActivity) = some 5 ∧
    max (max (0 : Int) 10) 5 = 10 := by
  decide

/-! Claim C8: registry cache invalidation and the sorted snapshot. -/

/-- A session with its active flag cleared (for stating that an operation
changes nothing but active flags). -/
def stripActive (s : Session) : Session := { s with isActive := false }

theorem handleFileUpdate_cases (env : Env) (fs : FS) (w : WState)
    (path : String) :
    (handleFileUpdate env fs w path).2.1 = [] ∨
    (handleFileUpdate env fs w path).1.sortedCacheValid = false := by
  unfold handleFileUpdate
  dsimp only
  cases sFind w.sessions (match w.subagentMap path with
    | some mainPath => mainPath
    | none => path) with
  | none => exact Or.inl rfl
  | some session =>
    dsimp only
    cases fs.files path with
    | none => exact Or.inl rfl
    | some content =>
      dsimp only
      by_cases hr : (ParseSessionFileFrom env path content (w.offsets path)
          (w.lineNumbers path)).1 = []
      · rw [if_pos hr]
        exact Or.inl rfl
      · rw [if_neg hr]
        exact Or.inr rfl

theorem handleNewFile_cases (env : Env) (fs : FS) (w : WState)
    (path : String) :
    (handleNewFile env fs w path).2 = [] ∨
    (handleNewFile env fs w path).1.sortedCacheValid = false := by
  unfold handleNewFile
  dsimp only
  by_cases hsub : baseOf (dirOf path) = "subagents"
  · rw [if_pos hsub]
    split
    · exact Or.inl rfl
    · by_cases h : (match fs.files path with
          | some c => (ParseSessionFile env path c).1
          | none => []) = []
      · rw [if_pos h]
        exact Or.inl rfl
      · rw [if_neg h]
        exact Or.inr rfl
  · rw [if_neg hsub]
    split
    · exact Or.inl rfl
    · split
      · exact Or.inl rfl
      · dsimp only
        split <;> exact Or.inr rfl

theorem refresh_strip_map (env : Env) (fs : FS) :
    ∀ l : List (String × Session),
    ((l.map (fun kv =>
        match fs.stat kv.1 with
        | some (m, _) =>
          (kv.1, { kv.2 with isActive := decide (env.now - m < fiveMinutes) })
        | none => kv)).map (fun kv => (kv.1, stripActive kv.2))) =
      l.map (fun kv => (kv.1, stripActive kv.2)) := by
  intro l
  induction l with
  | nil => rfl
  | cons kv rest ih =>
    simp only [List.map_cons]
    rw [ih]
    cases hstat : fs.stat kv.1 with
    | none => rfl
    | some p => cases p with | mk m sz => rfl

theorem mem_insertSess (x y : String × Session)
    (l : List (String × Session)) :
    y ∈ insertSess x l ↔ y = x ∨ y ∈ l := by
  induction l with
  | nil => simp [insertSess]
  | cons z zs ih =>
    simp only [insertSess]
    split_ifs <;> simp [ih] <;> tauto

theorem mem_sortSessionsDesc (y : String × Session)
    (l : List (String × Session)) :
    y ∈ sortSessionsDesc l ↔ y ∈ l := by
  induction l with
  | nil => simp [sortSessionsDesc]
  | cons x xs ih =>
    simp only [sortSessionsDesc, mem_insertSess, ih, List.mem_cons]

theorem head_insertSess (x : String × Session)
    (l : List (String × Session)) :
    (insertSess x l).head? = some x ∨ (insertSess x l).head? = l.head? := by
  cases l with
  | nil => exact Or.inl rfl
  | cons y ys =>
    simp only [insertSess]
    split_ifs
    · exact Or.inl rfl
    · exact Or.inr rfl

theorem chain'_insertSess (x : String × Session)
    (l : List (String × Session))
    (h : List.Chain' (fun a b : String × Session =>
      b.2.lastActivity ≤ a.2.lastActivity) l) :
    List.Chain' (fun a b : String × Session =>
      b.2.lastActivity ≤ a.2.lastActivity) (insertSess x l) := by
  induction l with
  | nil => simp [insertSess]
  | cons y ys ih =>
    simp only [insertSess]
    split_ifs with hlt
    · exact List.chain'_cons.mpr ⟨le_of_lt hlt, h⟩
    · have hy := List.chain'_cons'.mp h
      apply List.chain'_cons'.mpr
      refine ⟨?_, ih hy.2⟩
      intro z hz
      rcases head_insertSess x ys with hh | hh
      · rw [hh] at hz
        simp only [Option.mem_def, Option.some_inj] at hz
        subst hz
        exact not_lt.mp hlt
      · rw [hh] at hz
        exact hy.1 z hz

theorem chain'_sortSessionsDesc (l : List (String × Session)) :
    List.Chain' (fun a b : String × Session =>
      b.2.lastActivity ≤ a.2.lastActivity) (sortSessionsDesc l) := by
  induction l with
  | nil => simp [sortSessionsDesc]
  | cons x xs ih => exact chain'_insertSess x (sortSessionsDesc xs) ih

theorem sFind_of_mem_nodup :
    ∀ l : List (String × Session), (l.map Prod.fst).Nodup →
    ∀ kv ∈ l, sFind l kv.1 = some kv.2 := by
  intro l
  induction l with
  | nil => intro _ kv hkv; simp at hkv
  | cons hd tl ih =>
    intro hnd kv hkv
    have hnd' : hd.1 ∉ tl.map Prod.fst ∧ (tl.map Prod.fst).Nodup := by
      rw [List.map_cons] at hnd
      exact List.nodup_cons.mp hnd
    rcases List.mem_cons.mp hkv with rfl | hkv'
    · unfold sFind
      rw [List.find?_cons_of_pos _ (by simp)]
      rfl
    · have hne : hd.1 ≠ kv.1 := by
        intro he
        exact hnd'.1 (he ▸ List.mem_map.mpr ⟨kv, hkv', rfl⟩)
      unfold sFind
      rw [List.find?_cons_of_neg _ (by simp [hne])]
      exact ih hnd'.2 kv hkv'

theorem filterMap_sFind :
    ∀ (sl l : List (String × Session)), (l.map Prod.fst).Nodup →
    (∀ kv ∈ sl, kv ∈ l) →
    (sl.map Prod.fst).filterMap (sFind l) = sl.map Prod.snd := by
  intro sl
  induction sl with
  | nil => intro l _ _; rfl
  | cons kv rest ih =>
    intro l hnd hsub
    simp only [List.map_cons, List.filterMap_cons,
      sFind_of_mem_nodup l hnd kv (hsub kv (List.mem_cons_self _ _))]
    rw [ih l hnd (fun kv' h => hsub kv' (List.mem_cons_of_mem _ h))]

/-- Claim C8 (amended): appending commands (`handleFileUpdate`) and adding
or extending a session (`handleNewFile`) invalidate the sorted cache in
the same critical section whenever they emit a change event;
`RefreshActivityStatus` rewrites only active flags (everything else,
including every command list, is unchanged) — but, contrary to the claim
as stated, it does not invalidate the cache (refuted by
`c8_registry_counterexample`; the cache stores session pointers and
last-activity order, which the refresh does not change, so GetSessions
still reflects it); and whenever the cache is invalid and session keys
are distinct, `GetSessions` returns a snapshot sorted by last-activity
descending. -/
theorem c8_registry :
    (∀ (env : Env) (fs : FS) (w : WState) (path : String),
       (handleFileUpdate env fs w path).2.1 ≠ [] →
       (handleFileUpdate env fs w path).1.sortedCacheValid = false) ∧
    (∀ (env : Env) (fs : FS) (w : WState) (path : String),
       (handleNewFile env fs w path).2 ≠ [] →
       (handleNewFile env fs w path).1.sortedCacheValid = false) ∧
    (∀ (env : Env) (fs : FS) (w : WState),
       (RefreshActivityStatus env fs w).sessions.map
           (fun kv => (kv.1, stripActive kv.2)) =
         w.sessions.map (fun kv => (kv.1, stripActive kv.2))) ∧
    (∀ w : WState, w.sortedCacheValid = false →
       (w.sessions.map Prod.fst).Nodup →
       List.Chain' (fun a b : Session => b.lastActivity ≤ a.lastActivity)
         (GetSessions w).1) := by
  refine ⟨?_, ?_, ?_, ?_⟩
  · intro env fs w path h
    rcases handleFileUpdate_cases env fs w path with h1 | h1
    · exact absurd h1 h
    · exact h1
  · intro env fs w path h
    rcases handleNewFile_cases env fs w path with h1 | h1
    · exact absurd h1 h
    · exact h1
  · intro env fs w
    exact refresh_strip_map env fs w.sessions
  · intro w hv hnd
    unfold GetSessions
    rw [if_neg (by simp [hv])]
    dsimp only
    rw [show (rebuildSortedCache w).sessions = w.sessions from rfl,
        show (rebuildSortedCache w).sortedCache =
          (sortSessionsDesc w.sessions).map Prod.fst from rfl]
    rw [filterMap_sFind (sortSessionsDesc w.sessions) w.sessions hnd
      (fun kv h => (mem_sortSessionsDesc kv w.sessions).mp h)]
    rw [List.chain'_map]
    exact chain'_sortSessionsDesc w.sessions

/-- A filesystem where the tracked main file has grown by one line. -/
def fsC8 : FS :=
  { files := fun p => if p = "r/p/s.jsonl" then some ['w', '\n'] else none,
    stat := fun _ => none, glob := fun _ => [] }

/-- Witness for C8: a write event that appends a command invalidates the
cache of the concrete state `w0`, and a `GetSessions` on the invalid cache
yields a last-activity-sorted snapshot. -/
theorem c8_registry_witness :
    (handleFileUpdate envW fsC8 w0 "r/p/s.jsonl").1.sortedCacheValid = false ∧
    List.Chain' (fun a b : Session => b.lastActivity ≤ a.lastActivity)
      (GetSessions w0).1 :=
  ⟨c8_registry.1 envW fsC8 w0 "r/p/s.jsonl" (by decide),
   c8_registry.2.2.2 w0 rfl (by decide)⟩

/-- A filesystem where every stat reports modification time 0. -/
def fsStat0 : FS :=
  { files := fun _ => none, stat := fun _ => some ((0 : Int), (0 : Nat)),
    glob := fun _ => [] }

/-- A watcher state with one tracked inactive session and a valid cache. -/
def w1Valid : WState :=
  { w0 with sortedCache := ["r/p/s.jsonl"], sortedCacheValid := true }

/-- Counterexample refuting C8 as stated: `RefreshActivityStatus` flips
the session's active flag (a mutation) yet leaves the sorted cache valid,
so it is not true that every mutation invalidates the cache before
releasing the write lock. -/
theorem c8_registry_counterexample :
    (RefreshActivityStatus envW fsStat0 w1Valid).sessions.map
        (fun kv => kv.2.isActive) = [true] ∧
    w1Valid.sessions.map (fun kv => kv.2.isActive) = [false] ∧
    (RefreshActivityStatus envW fsStat0 w1Valid).sortedCacheValid = true := by
  decide

end CCMon
